import Mathlib

/-!
# City_Builder core — shallow embedding and verification

This file embeds the core game modules of the repository in Lean 4 and proves
properties of the embedded definitions:

* `src/game/pathfinder.ts` — the A* pathfinder (`findPath`);
* the grid / spatial index module (`placeEntity`, `removeEntity`, …);
* `src/game/resources.ts` — the economy model;
* the segment-based path-network module (`addPathsForEntity`,
  `removePathsForEntity`, `regeneratePaths`, …);
* `src/game/pathNetwork.ts` — the MST-based path-network variant.

Modelling conventions:

* JavaScript numbers are modelled as `Int` (coordinates, resource amounts) or
  `Nat` (ids, sizes, path costs).  All arithmetic performed by the embedded
  code on these values is integer arithmetic.
* JS `Map` objects are modelled as association lists with JS insertion-order
  semantics: `set` of an existing key updates the entry in place, `set` of a
  fresh key appends.  JS `Set` objects are modelled as duplicate-free lists
  with the same order semantics.
* The string key `"${col},${row}"` built by `cellKey` is injective on integer
  coordinate pairs (the decimal renderings contain no comma), so keys are
  modelled directly as coordinate pairs.
* `while` loops are modelled by structural recursion on an explicit fuel
  argument; the fuel supplied by the top-level wrappers is proved sufficient,
  so the fuel-exhaustion branch is never reached on those calls.
-/

/-! ## Association-list maps with JS `Map`/`Set` semantics -/

/-- `Map.get`: the value stored at key `k`, if present. -/
def alookup {α β : Type} [DecidableEq α] : List (α × β) → α → Option β
  | [], _ => none
  | (k', v) :: rest, k => if k' = k then some v else alookup rest k

/-- `Map.set`: update the entry in place if the key is present, else append. -/
def aset {α β : Type} [DecidableEq α] : List (α × β) → α → β → List (α × β)
  | [], k, v => [(k, v)]
  | (k', v') :: rest, k, v =>
      if k' = k then (k, v) :: rest else (k', v') :: aset rest k v

/-- `Map.delete`: remove the entry for a key (at most one is present). -/
def aerase {α β : Type} [DecidableEq α] : List (α × β) → α → List (α × β)
  | [], _ => []
  | (k', v') :: rest, k => if k' = k then rest else (k', v') :: aerase rest k

/-- `Set.add`: append the element if it is not already present. -/
def sadd {α : Type} [DecidableEq α] (s : List α) (x : α) : List α :=
  if x ∈ s then s else s ++ [x]

/-! ## `src/game/pathfinder.ts` -/

/-- A grid cell, as in the `PathCell` interface. -/
structure PathCell where
  col : Int
  row : Int
deriving DecidableEq, Repr

instance : Inhabited PathCell := ⟨⟨0, 0⟩⟩

/-- 4-directional neighbour offsets, in source order (up, right, down, left). -/
def DIRS : List (Int × Int) := [(0, -1), (1, 0), (0, 1), (-1, 0)]

/-- Manhattan distance between two cells. -/
def manhattan (c1 r1 c2 r2 : Int) : Nat :=
  (c1 - c2).natAbs + (r1 - r2).natAbs

/-- A search node, as in the `Node` interface.  `g`/`f` start at `0` and only
ever take values `g` and `g + manhattan …`, so they are natural numbers. -/
structure Node where
  col : Int
  row : Int
  g : Nat
  f : Nat
  parentKey : Option PathCell
deriving DecidableEq, Repr

/-- The mutable state of the A* main loop.  The source keeps `Node` objects
aliased between the `open` array and `nodeMap`; here `openList` holds the keys
and `nodeMap` is the single store, which models that aliasing exactly. -/
structure AState where
  openList : List PathCell
  closed : List PathCell
  nodeMap : List (PathCell × Node)
deriving Repr

/-- `f`-score of the node stored under a key (`0` if absent; never consulted
on an absent key on the calls the wrapper makes). -/
def fOf (m : List (PathCell × Node)) (k : PathCell) : Nat :=
  ((alookup m k).map Node.f).getD 0

/-- `g`-score of the node stored under a key (`0` if absent). -/
def gOf (m : List (PathCell × Node)) (k : PathCell) : Nat :=
  ((alookup m k).map Node.g).getD 0

/-- Pop the open-list entry the source selects: it scans for the first index
with strictly smallest `f` and splices it out.  `popBest` returns that element
together with the remaining list. -/
def popBest (m : List (PathCell × Node)) : List PathCell → PathCell × List PathCell
  | [] => (default, [])
  | [x] => (x, [])
  | x :: y :: rest =>
      let p := popBest m (y :: rest)
      if fOf m p.1 < fOf m x then (p.1, x :: p.2) else (x, y :: rest)

/-- Neighbour processing for one direction: the body of the `for (const dir of
DIRS)` loop.  `curKey` has already been added to `closed`. -/
def relax (gridCols gridRows : Nat) (endCol endRow : Int)
    (isBlocked : Int → Int → Bool) (curKey : PathCell) (curG : Nat)
    (st : AState) (dir : Int × Int) : AState :=
  let nc := curKey.col + dir.1
  let nr := curKey.row + dir.2
  if nc < 0 ∨ (gridCols : Int) ≤ nc ∨ nr < 0 ∨ (gridRows : Int) ≤ nr then st
  else
    let nKey : PathCell := ⟨nc, nr⟩
    if nKey ∈ st.closed then st
    else if isBlocked nc nr then st
    else
      let tG := curG + 1
      match alookup st.nodeMap nKey with
      | some existing =>
          -- source: `if (tentativeG >= existing.g) continue;` else update in place
          if existing.g ≤ tG then st
          else
            let upd : Node :=
              { existing with
                g := tG
                f := tG + manhattan nc nr endCol endRow
                parentKey := some curKey }
            { st with nodeMap := aset st.nodeMap nKey upd }
      | none =>
          let fresh : Node := ⟨nc, nr, tG, tG + manhattan nc nr endCol endRow, some curKey⟩
          { st with
            openList := st.openList ++ [nKey]
            nodeMap := aset st.nodeMap nKey fresh }

/-- Walk back through parent pointers (the `reconstruct` helper).  The source
appends each visited cell to `path` and reverses at the end; prepending to an
accumulator and skipping the final reverse produces the same list.  The fuel
is the size of `nodeMap`, which bounds the length of any parent chain. -/
def reconstructN (m : List (PathCell × Node)) :
    Nat → Option Node → List PathCell → List PathCell
  | _, none, acc => acc
  | 0, some _, acc => acc
  | fuel + 1, some n, acc =>
      reconstructN m fuel
        (match n.parentKey with
         | none => none
         | some p => alookup m p)
        (⟨n.col, n.row⟩ :: acc)

/-- The A* main loop (`while (open.length > 0)`), with fuel. -/
def loopA (gridCols gridRows : Nat) (endCol endRow : Int)
    (isBlocked : Int → Int → Bool) : Nat → AState → List PathCell
  | 0, _ => []
  | fuel + 1, st =>
      match st.openList with
      | [] => []
      | x :: xs =>
          let pb := popBest st.nodeMap (x :: xs)
          let curKey := pb.1
          if curKey = ⟨endCol, endRow⟩ then
            reconstructN st.nodeMap st.nodeMap.length (alookup st.nodeMap curKey) []
          else
            let curG := gOf st.nodeMap curKey
            let st1 : AState :=
              { openList := pb.2
                closed := st.closed ++ [curKey]
                nodeMap := st.nodeMap }
            loopA gridCols gridRows endCol endRow isBlocked fuel
              (DIRS.foldl (relax gridCols gridRows endCol endRow isBlocked curKey curG) st1)

/-- `findPath` from `src/game/pathfinder.ts`.  The fuel `gridCols * gridRows + 2`
exceeds the number of loop iterations (at most one per closable cell, of which
there are at most `gridCols * gridRows` in-bounds ones plus the start cell), as
proved in the loop lemmas below. -/
def findPath (startCol startRow endCol endRow : Int) (gridCols gridRows : Nat)
    (isBlocked : Int → Int → Bool) : List PathCell :=
  if startCol = endCol ∧ startRow = endRow then [⟨startCol, startRow⟩]
  else
    loopA gridCols gridRows endCol endRow isBlocked (gridCols * gridRows + 2)
      { openList := [⟨startCol, startRow⟩]
        closed := []
        nodeMap := [(⟨startCol, startRow⟩,
          ⟨startCol, startRow, 0, manhattan startCol startRow endCol endRow, none⟩)] }

/-! ## The grid / spatial index module -/

/-- A placeable entity.  The source discriminates walls by probing for the
`defence` property (`"defence" in entity`, only `WallEntity` has it);
`hasDefence` models the presence of that property. -/
structure Entity where
  id : Nat
  col : Int
  row : Int
  width : Nat
  height : Nat
  hasDefence : Bool
deriving DecidableEq, Repr

/-- Number of columns (cells along X). -/
def GRID_COLS : Nat := 128

/-- Number of rows (cells along Y). -/
def GRID_ROWS : Nat := 128

/-- The grid module's mutable state: `entitiesById` and `cellOccupant`. -/
structure GridState where
  entitiesById : List (Nat × Entity)
  cellOccupant : List (PathCell × Entity)
deriving Repr

/-- The cells of an entity's footprint, in the `dc`-outer/`dr`-inner order the
source's nested `for` loops visit them. -/
def footprintCells (e : Entity) : List PathCell :=
  (List.range e.width).flatMap
    (fun dc => (List.range e.height).map (fun dr => ⟨e.col + dc, e.row + dr⟩))

/-- `placeEntity`: bounds check, collision check, then commit. -/
def placeEntity (g : GridState) (entity : Entity) : Bool × GridState :=
  -- source: entity.col < 0 || entity.col + entity.width > GRID_COLS || …
  if entity.col < 0 ∨ (GRID_COLS : Int) < entity.col + entity.width ∨
      entity.row < 0 ∨ (GRID_ROWS : Int) < entity.row + entity.height then
    (false, g)
  else if (footprintCells entity).any (fun c => (alookup g.cellOccupant c).isSome) then
    (false, g)
  else
    (true,
      { entitiesById := aset g.entitiesById entity.id entity
        cellOccupant :=
          (footprintCells entity).foldl (fun m c => aset m c entity) g.cellOccupant })

/-- `removeEntity`: clear the id mapping and every footprint cell. -/
def removeEntity (g : GridState) (id : Nat) : Option Entity × GridState :=
  match alookup g.entitiesById id with
  | none => (none, g)
  | some entity =>
      (some entity,
        { entitiesById := aerase g.entitiesById id
          cellOccupant :=
            (footprintCells entity).foldl (fun m c => aerase m c) g.cellOccupant })

/-- `getEntityAt`: the entity occupying a cell, if any. -/
def getEntityAt (g : GridState) (col row : Int) : Option Entity :=
  alookup g.cellOccupant ⟨col, row⟩

/-- `getEntityById`. -/
def getEntityById (g : GridState) (id : Nat) : Option Entity :=
  alookup g.entitiesById id

/-- `getAllEntities`: all placed entities, in `Map` insertion order. -/
def getAllEntities (g : GridState) : List Entity :=
  g.entitiesById.map Prod.snd

/-! ## `src/game/resources.ts` -/

/-- The four resource types. -/
inductive ResourceType where
  | gold | wood | stone | food
deriving DecidableEq, Repr, Fintype

/-- `RESOURCE_TYPES`, used for iteration. -/
def RESOURCE_TYPES : List ResourceType :=
  [.gold, .wood, .stone, .food]

/-- A `ResourceMap` assigns a number to each resource type.  Resource
arithmetic in the source stays on integer values for integer inputs, so the
numeric domain is modelled as `Int`. -/
def RMap : Type := ResourceType → Int

/-- A `Partial<ResourceMap>`: some types may be absent (`amounts[type] ?? 0`). -/
def PartialRMap : Type := ResourceType → Option Int

/-- The full economy state. -/
structure EconomyState where
  resources : RMap
  capacity : RMap
  production : RMap
  consumption : RMap

/-- Default starting capacity. -/
def DEFAULT_CAPACITY : RMap := fun t =>
  match t with
  | .gold => 500 | .wood => 300 | .stone => 300 | .food => 300

/-- Default starting resources. -/
def DEFAULT_STARTING : RMap := fun t =>
  match t with
  | .gold => 100 | .wood => 50 | .stone => 50 | .food => 50

/-- `createEconomyState`. -/
def createEconomyState : EconomyState :=
  { resources := DEFAULT_STARTING
    capacity := DEFAULT_CAPACITY
    production := fun _ => 0
    consumption := fun _ => 0 }

/-- `canAfford`: true iff every type's current amount covers the cost.  The
source loop updates/inspects each member of `RESOURCE_TYPES`, which is all
four types, so the per-type pointwise reading is exact. -/
def canAfford (state : EconomyState) (cost : RMap) : Bool :=
  RESOURCE_TYPES.all (fun t => decide (cost t ≤ state.resources t))

/-- `spendResources`: deduct a cost, or fail without mutation. -/
def spendResources (state : EconomyState) (cost : RMap) : Bool × EconomyState :=
  if canAfford state cost then
    (true, { state with resources := fun t => state.resources t - cost t })
  else (false, state)

/-- `addResources`: add, clamped to capacity (`Math.min` only — no floor). -/
def addResources (state : EconomyState) (amounts : PartialRMap) : EconomyState :=
  { state with
    resources := fun t => min (state.resources t + (amounts t).getD 0) (state.capacity t) }

/-- `removeCapacity`: floor capacity at zero, then clamp resources down. -/
def removeCapacity (state : EconomyState) (amounts : PartialRMap) : EconomyState :=
  { state with
    capacity := fun t => max 0 (state.capacity t - (amounts t).getD 0)
    resources := fun t =>
      min (state.resources t) (max 0 (state.capacity t - (amounts t).getD 0)) }

/-- `tickEconomy`: apply production minus consumption, clamp into
`[0, capacity]`, and return the realized net change per type. -/
def tickEconomy (state : EconomyState) : RMap × EconomyState :=
  let newRes : RMap := fun t =>
    max 0 (min (state.resources t + (state.production t - state.consumption t))
      (state.capacity t))
  (fun t => newRes t - state.resources t, { state with resources := newRes })

/-! ## Association-list lemmas -/

theorem alookup_aset_self {α β : Type} [DecidableEq α] (m : List (α × β)) (k : α) (v : β) :
    alookup (aset m k v) k = some v := by
  induction m with
  | nil => simp [aset, alookup]
  | cons p rest ih =>
      obtain ⟨k', v'⟩ := p
      by_cases h : k' = k <;> simp [aset, alookup, h, ih]

theorem alookup_aset_ne {α β : Type} [DecidableEq α] (m : List (α × β)) (k k' : α) (v : β)
    (h : k ≠ k') : alookup (aset m k v) k' = alookup m k' := by
  induction m with
  | nil => simp [aset, alookup, h]
  | cons p rest ih =>
      obtain ⟨k0, v0⟩ := p
      by_cases h0 : k0 = k
      · subst h0
        simp [aset, alookup, h]
      · simp [aset, alookup, h0, ih]

theorem alookup_foldl_aset_stable {α β : Type} [DecidableEq α] (v : β) :
    ∀ (cells : List α) (m : List (α × β)) (c : α), alookup m c = some v →
      alookup (cells.foldl (fun m c => aset m c v) m) c = some v := by
  intro cells
  induction cells with
  | nil => intro m c h; simpa using h
  | cons d ds ih =>
      intro m c h
      by_cases hdc : d = c
      · exact ih _ c (hdc ▸ alookup_aset_self m d v)
      · exact ih _ c (by rw [alookup_aset_ne m d c v hdc]; exact h)

theorem alookup_foldl_aset_mem {α β : Type} [DecidableEq α] (cells : List α) (v : β) :
    ∀ (m : List (α × β)) (c : α), c ∈ cells →
      alookup (cells.foldl (fun m c => aset m c v) m) c = some v := by
  induction cells with
  | nil => intro m c h; cases h
  | cons c0 rest ih =>
      intro m c h
      by_cases hc : c = c0
      · subst hc
        simpa using alookup_foldl_aset_stable v rest (aset m c v) c (alookup_aset_self m c v)
      · have : c ∈ rest := by
          rcases List.mem_cons.mp h with h1 | h1
          · exact absurd h1 hc
          · exact h1
        simpa using ih (aset m c0 v) c this

/-! ## Claim C2 — `placeEntity` atomicity -/

/-- **C2, counterexample.**  Place a 1×1 non-wall entity at the origin, then
call `placeEntity` again on the very same entity.  Every footprint cell is in
bounds and occupied by that entity itself — not by another entity — yet the
second call returns `false`.  This contradicts the claim's «otherwise it
returns true»: the occupancy check fails on *any* occupant, the entity itself
included. -/
theorem c2_counterexample :
    (∀ c ∈ footprintCells ⟨1, 0, 0, 1, 1, false⟩,
        (0 ≤ c.col ∧ c.col < (GRID_COLS : Int) ∧ 0 ≤ c.row ∧ c.row < (GRID_ROWS : Int)) ∧
        alookup (placeEntity ⟨[], []⟩ ⟨1, 0, 0, 1, 1, false⟩).2.cellOccupant c =
          some ⟨1, 0, 0, 1, 1, false⟩) ∧
    (placeEntity (placeEntity ⟨[], []⟩ ⟨1, 0, 0, 1, 1, false⟩).2 ⟨1, 0, 0, 1, 1, false⟩).1
      = false := by
  decide

/-- **C2, amended.**  `placeEntity` succeeds iff the footprint rectangle lies
inside `[0,GRID_COLS)×[0,GRID_ROWS)` and every footprint cell is unoccupied by
*any* entity (the entity itself included); on failure the grid state is
returned unchanged; on success the entity is registered under its id and every
footprint cell maps to it. -/
theorem c2_placeEntity_atomic (g : GridState) (e : Entity) :
    ((placeEntity g e).1 = true ↔
      (0 ≤ e.col ∧ (e.col + e.width : Int) ≤ (GRID_COLS : Int) ∧
        0 ≤ e.row ∧ (e.row + e.height : Int) ≤ (GRID_ROWS : Int)) ∧
      ∀ c ∈ footprintCells e, alookup g.cellOccupant c = none) ∧
    ((placeEntity g e).1 = false → (placeEntity g e).2 = g) ∧
    ((placeEntity g e).1 = true →
      alookup (placeEntity g e).2.entitiesById e.id = some e ∧
      ∀ c ∈ footprintCells e, alookup (placeEntity g e).2.cellOccupant c = some e) := by
  by_cases hb : e.col < 0 ∨ (GRID_COLS : Int) < e.col + e.width ∨
      e.row < 0 ∨ (GRID_ROWS : Int) < e.row + e.height
  · constructor
    · simp only [placeEntity, hb, if_true]
      constructor
      · intro h; cases h
      · rintro ⟨⟨h1, h2, h3, h4⟩, -⟩
        omega
    · constructor
      · intro _; simp [placeEntity, hb]
      · intro h; simp [placeEntity, hb] at h
  · by_cases hocc : (footprintCells e).any (fun c => (alookup g.cellOccupant c).isSome)
    · constructor
      · simp only [placeEntity, hb, if_false, hocc, if_true]
        constructor
        · intro h; cases h
        · rintro ⟨-, hall⟩
          rw [List.any_eq_true] at hocc
          obtain ⟨c, hc, hcs⟩ := hocc
          rw [hall c hc] at hcs
          cases hcs
      · constructor
        · intro _; simp [placeEntity, hb, hocc]
        · intro h; simp [placeEntity, hb, hocc] at h
    · have htrue : (placeEntity g e).1 = true := by simp [placeEntity, hb, hocc]
      refine ⟨⟨fun _ => ⟨by omega, ?_⟩, fun _ => htrue⟩, fun hf => ?_, fun _ => ?_⟩
      · intro c hc
        have hocc' := List.any_eq_false.mp (Bool.of_not_eq_true hocc)
        cases h' : alookup g.cellOccupant c with
        | none => rfl
        | some x =>
            have := hocc' c hc
            rw [h'] at this
            simp at this
      · rw [htrue] at hf; cases hf
      · constructor
        · simp [placeEntity, hb, hocc, alookup_aset_self]
        · intro c hc
          simp only [placeEntity, hb, hocc]
          simpa using alookup_foldl_aset_mem (footprintCells e) e g.cellOccupant c hc

/-- **C2, witness.**  The amended theorem applied to a concrete successful
placement: a 2×2 house at (0,0) on the empty grid is placed, and its footprint
cell (1,1) afterwards maps to it. -/
theorem c2_witness :
    (placeEntity ⟨[], []⟩ ⟨1, 0, 0, 2, 2, false⟩).1 = true ∧
    alookup (placeEntity ⟨[], []⟩ ⟨1, 0, 0, 2, 2, false⟩).2.cellOccupant ⟨1, 1⟩ =
      some ⟨1, 0, 0, 2, 2, false⟩ := by
  have h := c2_placeEntity_atomic ⟨[], []⟩ ⟨1, 0, 0, 2, 2, false⟩
  have ht : (placeEntity ⟨[], []⟩ ⟨1, 0, 0, 2, 2, false⟩).1 = true :=
    h.1.mpr (by decide)
  exact ⟨ht, (h.2.2 ht).2 ⟨1, 1⟩ (by decide)⟩

/-! ## Claims C3 and C7 — the economy model -/

/-- The economy operations quantified over by claim C3. -/
inductive EconOp where
  | addRes (amounts : PartialRMap)
  | tickE
  | removeCap (amounts : PartialRMap)
  | spend (cost : RMap)

/-- Apply one economy operation (dropping the boolean/net-delta results). -/
def applyEconOp (st : EconomyState) (op : EconOp) : EconomyState :=
  match op with
  | .addRes a => addResources st a
  | .tickE => (tickEconomy st).2
  | .removeCap a => removeCapacity st a
  | .spend c => (spendResources st c).2

/-- The clamping invariant of claim C3. -/
def ResInv (st : EconomyState) : Prop :=
  ∀ t, 0 ≤ st.resources t ∧ st.resources t ≤ st.capacity t

/-- Non-negativity side condition under which the invariant actually holds:
`addResources` amounts and `spendResources` costs must be non-negative. -/
def NonNegOp : EconOp → Prop
  | .addRes a => ∀ t, 0 ≤ (a t).getD 0
  | .spend c => ∀ t, 0 ≤ c t
  | .tickE => True
  | .removeCap _ => True

/-- **C3, counterexample.**  A single `addResources` call with a negative
amount drives gold below zero on a fresh economy state: `addResources` clamps
only at capacity (`Math.min`), not at zero, so the claim's «a single
addResources call … never makes it negative» fails for arbitrary amount maps. -/
theorem c3_counterexample :
    (addResources createEconomyState
        (fun t => if t = ResourceType.gold then some (-200) else none)).resources
      ResourceType.gold < 0 := by
  decide

theorem resInv_addResources (st : EconomyState) (a : PartialRMap)
    (hinv : ResInv st) (ha : ∀ t, 0 ≤ (a t).getD 0) : ResInv (addResources st a) := by
  intro t
  have h1 := hinv t
  have h2 := ha t
  simp only [addResources]
  constructor
  · exact le_min (by omega) (by omega)
  · exact min_le_right _ _

theorem resInv_removeCapacity (st : EconomyState) (a : PartialRMap)
    (hinv : ResInv st) : ResInv (removeCapacity st a) := by
  intro t
  have h1 := hinv t
  simp only [removeCapacity]
  constructor
  · exact le_min (by omega) (by omega)
  · exact min_le_right _ _

theorem resInv_tickEconomy (st : EconomyState) (hinv : ResInv st) :
    ResInv (tickEconomy st).2 := by
  intro t
  have h1 := hinv t
  simp only [tickEconomy]
  constructor
  · exact le_max_left _ _
  · exact max_le (by omega) (min_le_right _ _)

theorem resInv_spendResources (st : EconomyState) (c : RMap)
    (hinv : ResInv st) (hc : ∀ t, 0 ≤ c t) : ResInv (spendResources st c).2 := by
  by_cases h : canAfford st c
  · have haff : ∀ t, c t ≤ st.resources t := by
      intro t
      have := List.all_eq_true.mp h t (by cases t <;> simp [RESOURCE_TYPES])
      exact of_decide_eq_true this
    intro t
    have h1 := hinv t
    have h2 := hc t
    have h3 := haff t
    simp only [spendResources, h, if_true]
    omega
  · simpa [spendResources, h] using hinv

theorem resInv_foldl (ops : List EconOp) :
    ∀ st : EconomyState, ResInv st → (∀ op ∈ ops, NonNegOp op) →
      ResInv (ops.foldl applyEconOp st) := by
  induction ops with
  | nil => intro st h _; simpa using h
  | cons op rest ih =>
      intro st h hops
      have hstep : ResInv (applyEconOp st op) := by
        have hop : NonNegOp op := hops op (List.mem_cons_self op rest)
        cases op with
        | addRes a => exact resInv_addResources st a h hop
        | tickE => exact resInv_tickEconomy st h
        | removeCap a => exact resInv_removeCapacity st a h
        | spend c => exact resInv_spendResources st c h hop
      simpa using ih (applyEconOp st op) hstep
        (fun op' hop' => hops op' (List.mem_cons_of_mem op hop'))

/-- **C3, amended.**  For every sequence of economy operations starting from a
fresh economy state, `0 ≤ resources[type] ≤ capacity[type]` holds after every
call — *provided* every `addResources` amount and every `spendResources` cost
is non-negative.  (With genuinely arbitrary amount maps the invariant fails;
see the counterexample.) -/
theorem c3_clamp_invariant (ops : List EconOp) (h : ∀ op ∈ ops, NonNegOp op) :
    ResInv (ops.foldl applyEconOp createEconomyState) := by
  refine resInv_foldl ops createEconomyState ?_ h
  intro t
  cases t <;> simp [createEconomyState, DEFAULT_STARTING, DEFAULT_CAPACITY]

/-- **C3, witness.**  The amended theorem applied to a concrete operation
sequence: add 450 gold (clamps at the 500 capacity), spend 30 gold, tick. -/
theorem c3_witness :
    ResInv (([EconOp.addRes (fun t => if t = ResourceType.gold then some 450 else none),
        EconOp.spend (fun _ => 0), EconOp.tickE]).foldl applyEconOp createEconomyState) := by
  refine c3_clamp_invariant _ ?_
  intro op hop
  rcases List.mem_cons.mp hop with h | hop
  · subst h; intro t; cases t <;> simp
  rcases List.mem_cons.mp hop with h | hop
  · subst h; intro t; simp
  rcases List.mem_cons.mp hop with h | hop
  · subst h; trivial
  · cases hop

/-- **C7.**  One `tickEconomy` call replaces each resource amount by the old
amount plus `production − consumption`, clamped into `[0, capacity]`, and
returns per type the realized net change (new minus old amount). -/
theorem c7_tickEconomy_spec (state : EconomyState) (t : ResourceType) :
    (tickEconomy state).2.resources t =
      max 0 (min (state.resources t + (state.production t - state.consumption t))
        (state.capacity t)) ∧
    (tickEconomy state).1 t = (tickEconomy state).2.resources t - state.resources t := by
  exact ⟨rfl, rfl⟩

/-! ## The segment-based path-network module -/

/-- Integer range `[a, b]` inclusive, ascending (for `for (let d = -r; d <= r; d++)`). -/
def intRange (a b : Int) : List Int :=
  (List.range (b + 1 - a).toNat).map (fun i => a + i)

/-- Stable insertion of `x` after all elements with key `≤ key x`. -/
def sinsert {α : Type} (key : α → Nat) (x : α) : List α → List α
  | [] => [x]
  | y :: ys => if key y ≤ key x then y :: sinsert key x ys else x :: y :: ys

/-- Stable ascending sort by a `Nat` key.  Models the stable JS
`Array.prototype.sort` with comparator `(a, b) => key(a) - key(b)`. -/
def ssortByKey {α : Type} (key : α → Nat) (l : List α) : List α :=
  l.foldl (fun acc x => sinsert key x acc) []

namespace PathNet

/-- A path segment between two building ids. -/
structure Segment where
  fromId : Nat
  toId : Nat
  cells : List PathCell
deriving DecidableEq, Repr

/-- The module state: the derived `pathCellSet` (a JS `Set`) and the
`segments` array. -/
structure NetState where
  pathCellSet : List PathCell
  segments : List Segment
deriving DecidableEq, Repr

/-- Maximum neighbours each building connects to. -/
def MAX_NEIGHBOURS : Nat := 1

/-- Search radius when looking for an existing nearby path cell. -/
def NEARBY_RADIUS : Nat := 5

/-- `isWall`: the source probes for the `defence` property. -/
def isWall (e : Entity) : Bool := e.hasDefence

/-- `getDoorCell`: probe south, east, north, west edge midpoints in order. -/
def getDoorCell (g : GridState) (entity : Entity) : Option PathCell :=
  let midCol : Int := entity.col + (entity.width / 2 : Nat)
  let midRow : Int := entity.row + (entity.height / 2 : Nat)
  let sRow : Int := entity.row + entity.height
  if sRow < (GRID_ROWS : Int) ∧ (getEntityAt g midCol sRow).isNone then
    some ⟨midCol, sRow⟩
  else
    let eCol : Int := entity.col + entity.width
    if eCol < (GRID_COLS : Int) ∧ (getEntityAt g eCol midRow).isNone then
      some ⟨eCol, midRow⟩
    else
      let nRow : Int := entity.row - 1
      if 0 ≤ nRow ∧ (getEntityAt g midCol nRow).isNone then
        some ⟨midCol, nRow⟩
      else
        let wCol : Int := entity.col - 1
        if 0 ≤ wCol ∧ (getEntityAt g wCol midRow).isNone then
          some ⟨wCol, midRow⟩
        else none

/-- `isCellBlocked`: a cell is blocked iff occupied by a building. -/
def isCellBlocked (g : GridState) (col row : Int) : Bool :=
  (getEntityAt g col row).isSome

/-- `rebuildCellSet`: recompute `pathCellSet` from all stored segments. -/
def rebuildCellSet (st : NetState) : NetState :=
  { st with pathCellSet := st.segments.foldl (fun s seg => seg.cells.foldl sadd s) [] }

/-- `segmentExists`: does a segment connect two ids (in either direction)? -/
def segmentExists (st : NetState) (idA idB : Nat) : Bool :=
  st.segments.any (fun s =>
    (s.fromId = idA ∧ s.toId = idB) ∨ (s.fromId = idB ∧ s.toId = idA))

/-- `connectionCount`: how many segments involve a given building id. -/
def connectionCount (st : NetState) (entityId : Nat) : Nat :=
  (st.segments.filter (fun s => s.fromId = entityId ∨ s.toId = entityId)).length

/-- The ring-scan candidate cells around `(col,row)`, in exactly the source's
iteration order (`r` ascending, `dc` then `dr` ascending, perimeter cells
only, in-bounds only). -/
def nearbyCandidates (col row : Int) : List PathCell :=
  (List.range (NEARBY_RADIUS + 1)).flatMap (fun r =>
    (intRange (-(r : Int)) r).flatMap (fun dc =>
      (intRange (-(r : Int)) r).filterMap (fun dr =>
        if dc.natAbs ≠ r ∧ dr.natAbs ≠ r then none
        else
          let nc := col + dc
          let nr := row + dr
          if nc < 0 ∨ (GRID_COLS : Int) ≤ nc ∨ nr < 0 ∨ (GRID_ROWS : Int) ≤ nr then none
          else some ⟨nc, nr⟩)))

/-- `findNearbyPathCell`: the first candidate (in scan order) that belongs to
the path-cell set and is not blocked. -/
def findNearbyPathCell (g : GridState) (st : NetState) (col row : Int) : Option PathCell :=
  (nearbyCandidates col row).find? (fun cell =>
    cell ∈ st.pathCellSet ∧ ¬ isCellBlocked g cell.col cell.row)

/-- `findSegmentOwner`: the `fromId` of the first segment containing the cell.
The source returns `-1` when no segment contains it; that sentinel is modelled
as `none`. -/
def findSegmentOwner (st : NetState) (col row : Int) : Option Nat :=
  (st.segments.find? (fun seg => seg.cells.any (fun cl => cl = ⟨col, row⟩))).map
    Segment.fromId

/-- The bridge-shortcut attempt of `addPathsForEntity`: `none` means the
source fell through to the nearest-neighbour fallback. -/
def tryBridge (g : GridState) (entity : Entity) (st : NetState) (door : PathCell) :
    Option NetState :=
  match findNearbyPathCell g st door.col door.row with
  | none => none
  | some nearbyCell =>
      match findSegmentOwner st nearbyCell.col nearbyCell.row with
      | none => none
      | some ownerId =>
          if segmentExists st entity.id ownerId then none
          else
            let bridge := findPath door.col door.row nearbyCell.col nearbyCell.row
              GRID_COLS GRID_ROWS (fun c r => isCellBlocked g c r)
            if bridge = [] then none
            else some
              { pathCellSet := bridge.foldl sadd st.pathCellSet
                segments := st.segments ++ [⟨entity.id, ownerId, bridge⟩] }

/-- One iteration of the nearest-neighbour fallback loop. -/
def connectToTarget (g : GridState) (entity : Entity) (door : PathCell)
    (acc : NetState) (target : Entity × PathCell) : NetState :=
  if segmentExists acc entity.id target.1.id then acc
  else
    let path := findPath door.col door.row target.2.col target.2.row
      GRID_COLS GRID_ROWS (fun c r => isCellBlocked g c r)
    if path = [] then acc
    else
      { pathCellSet := path.foldl sadd acc.pathCellSet
        segments := acc.segments ++ [⟨entity.id, target.1.id, path⟩] }

/-- `addPathsForEntity`.  (The source additionally clears all moveable
entities' cached routes; moveable-entity state is disjoint from the
segments/path-cell state modelled here, so that call is not modelled.) -/
def addPathsForEntity (g : GridState) (entity : Entity) (st : NetState) : NetState :=
  if isWall entity then st
  else
    match getDoorCell g entity with
    | none => st
    | some door =>
        match tryBridge g entity st door with
        | some st' => st'  -- connected to the existing network — done
        | none =>
            let others := (getAllEntities g).filterMap (fun e =>
              if e.id = entity.id then none
              else if isWall e then none
              else (getDoorCell g e).map (fun d => (e, d)))
            if others = [] then st
            else
              let sorted := ssortByKey
                (fun t => manhattan door.col door.row t.2.col t.2.row) others
              (sorted.take MAX_NEIGHBOURS).foldl (connectToTarget g entity door) st

/-- Former neighbours of `entityId`: the other endpoint of every incident
segment, collected in segment order into a JS `Set` (first occurrence wins). -/
def orphanList (st : NetState) (entityId : Nat) : List Nat :=
  st.segments.foldl (fun acc seg =>
    if seg.fromId = entityId then sadd acc seg.toId
    else if seg.toId = entityId then sadd acc seg.fromId
    else acc) []

/-- `removePathsForEntity`, instrumented: also returns the list of orphan ids
on which `addPathsForEntity` was actually re-run (in loop order).  The second
component is bookkeeping only; it does not influence the returned state. -/
def removePathsForEntityT (g : GridState) (entityId : Nat) (st : NetState) :
    NetState × List Nat :=
  let orphanIds := orphanList st entityId
  let remaining := st.segments.filter
    (fun s => ¬ (s.fromId = entityId ∨ s.toId = entityId))
  let st1 := rebuildCellSet { pathCellSet := st.pathCellSet, segments := remaining }
  orphanIds.foldl (fun acc oid =>
    if MAX_NEIGHBOURS ≤ connectionCount acc.1 oid then acc
    else
      match getEntityById g oid with
      | none => acc
      | some orphan => (addPathsForEntity g orphan acc.1, acc.2 ++ [oid]))
    (st1, [])

/-- `removePathsForEntity`. -/
def removePathsForEntity (g : GridState) (entityId : Nat) (st : NetState) : NetState :=
  (removePathsForEntityT g entityId st).1

/-- `regeneratePaths`: clear everything, then re-add every placed entity. -/
def regeneratePaths (g : GridState) (_st : NetState) : NetState :=
  let cleared : NetState := ⟨[], []⟩
  let entities := getAllEntities g
  if entities.length < 2 then cleared
  else entities.foldl (fun acc e => addPathsForEntity g e acc) cleared

/-- `isPathCell`. -/
def isPathCell (st : NetState) (col row : Int) : Bool :=
  decide ((⟨col, row⟩ : PathCell) ∈ st.pathCellSet)

/-- `getPathCells`: path cells not hidden by a building. -/
def getPathCells (g : GridState) (st : NetState) : List PathCell :=
  st.pathCellSet.filter (fun c => ¬ isCellBlocked g c.col c.row)

/-- `findNavigationPath`: constrained to path cells, except that the query
origin is exempted from the blocked predicate. -/
def findNavigationPath (_g : GridState) (st : NetState)
    (fromCol fromRow toCol toRow : Int) : List PathCell :=
  findPath fromCol fromRow toCol toRow GRID_COLS GRID_ROWS
    (fun c r => ¬ isPathCell st c r ∧ ¬ (c = fromCol ∧ r = fromRow))

end PathNet

/-! ## `src/game/pathNetwork.ts` — the MST-based variant

Its `getDoorCell` and `isCellBlocked` are textually identical to the
segment-based module's, so `PathNet.getDoorCell` / `PathNet.isCellBlocked`
are reused. -/

namespace MstNet

/-- The module state: only the path-cell set. -/
structure MstState where
  pathCellSet : List PathCell
deriving DecidableEq, Repr

/-- The candidate edges one scan of Prim's double loop produces: pairs
`(j, path)` with `i` in the MST, `j` not, and a non-empty A* path between
doors `i` and `j`, in scan order. -/
def primCandidates (g : GridState) (doors : List PathCell) (inMST : List Nat) :
    List (Nat × List PathCell) :=
  (List.range doors.length).flatMap (fun i =>
    if i ∈ inMST then
      (List.range doors.length).filterMap (fun j =>
        if j ∈ inMST then none
        else
          let p := findPath (doors.getD i default).col (doors.getD i default).row
            (doors.getD j default).col (doors.getD j default).row
            GRID_COLS GRID_ROWS (fun c r => PathNet.isCellBlocked g c r)
          if p = [] then none else some (j, p))
    else [])

/-- The source keeps the first candidate that strictly improves `bestLen`
(scan order, `<` comparison): the first candidate of minimal path length. -/
def pickMin : List (Nat × List PathCell) → Option (Nat × List PathCell) :=
  List.foldl (fun best c =>
    match best with
    | none => some c
    | some b => if c.2.length < b.2.length then some c else some b) none

/-- Prim's main loop (`while (mstCount < n)`), with fuel. -/
def primLoop (g : GridState) (doors : List PathCell) :
    Nat → List Nat → List PathCell → List PathCell
  | 0, _, cells => cells
  | fuel + 1, inMST, cells =>
      if doors.length ≤ inMST.length then cells
      else
        match pickMin (primCandidates g doors inMST) with
        | none => cells  -- remaining buildings are unreachable
        | some (j, p) => primLoop g doors fuel (inMST ++ [j]) (p.foldl sadd cells)

/-- `regeneratePaths` of the MST variant: clear the cell set, collect doors,
run Prim's algorithm with A* path lengths as edge weights.  The fuel
`doors.length` covers every iteration (`mstCount` grows by one per step from
`1` and the loop stops at `n`). -/
def regeneratePaths (g : GridState) (_st : MstState) : MstState :=
  let entities := getAllEntities g
  if entities.length < 2 then ⟨[]⟩
  else
    let doors := entities.filterMap (fun e => PathNet.getDoorCell g e)
    if doors.length < 2 then ⟨[]⟩
    else ⟨primLoop g doors doors.length [0] []⟩

end MstNet

/-! ## Claims C8 and C10 — `regeneratePaths` -/

/-- **C8.**  `regeneratePaths` first clears all segments and path cells and
then rebuilds purely from the grid, so its result does not depend on the
previous network state at all; calling it twice in a row without any grid
mutation yields the same path-cell set (indeed the same whole state).  This
holds for the segment-based module and for the MST-based variant. -/
theorem c8_regeneratePaths_idempotent (g : GridState) (st : PathNet.NetState)
    (mst : MstNet.MstState) :
    (PathNet.regeneratePaths g (PathNet.regeneratePaths g st)).pathCellSet =
      (PathNet.regeneratePaths g st).pathCellSet ∧
    (MstNet.regeneratePaths g (MstNet.regeneratePaths g mst)).pathCellSet =
      (MstNet.regeneratePaths g mst).pathCellSet :=
  ⟨rfl, rfl⟩

/-- **C10.**  With fewer than two placed entities, `regeneratePaths` leaves
the network empty: the segment-based module ends with no segments and no path
cells, and the MST variant ends with no path cells. -/
theorem c10_regen_lt_two_empty (g : GridState) (st : PathNet.NetState)
    (mst : MstNet.MstState) (h : (getAllEntities g).length < 2) :
    PathNet.regeneratePaths g st = ⟨[], []⟩ ∧
    (MstNet.regeneratePaths g mst).pathCellSet = [] := by
  constructor
  · simp [PathNet.regeneratePaths, if_pos h]
  · simp [MstNet.regeneratePaths, if_pos h]

/-- **C10, witness.**  A single placed 2×2 house: after `regeneratePaths`
both variants have an empty network. -/
theorem c10_witness :
    (getAllEntities (placeEntity ⟨[], []⟩ ⟨1, 0, 0, 2, 2, false⟩).2).length < 2 ∧
    PathNet.regeneratePaths (placeEntity ⟨[], []⟩ ⟨1, 0, 0, 2, 2, false⟩).2
      ⟨[⟨0, 0⟩], [⟨7, 8, [⟨0, 0⟩]⟩]⟩ = ⟨[], []⟩ := by
  have h : (getAllEntities (placeEntity ⟨[], []⟩ ⟨1, 0, 0, 2, 2, false⟩).2).length < 2 := by
    decide
  exact ⟨h, (c10_regen_lt_two_empty _ ⟨[⟨0, 0⟩], [⟨7, 8, [⟨0, 0⟩]⟩]⟩ ⟨[]⟩ h).1⟩

/-! ## Claim C4 — path-cell set equals the union of segment cells -/

theorem mem_sadd {α : Type} [DecidableEq α] (s : List α) (x c : α) :
    c ∈ sadd s x ↔ c ∈ s ∨ c = x := by
  by_cases h : x ∈ s
  · simp only [sadd, if_pos h]
    constructor
    · exact Or.inl
    · rintro (hc | rfl)
      · exact hc
      · exact h
  · simp [sadd, if_neg h]

theorem mem_foldl_sadd {α : Type} [DecidableEq α] (cells : List α) :
    ∀ (s : List α) (c : α), c ∈ cells.foldl sadd s ↔ c ∈ s ∨ c ∈ cells := by
  induction cells with
  | nil => intro s c; simp
  | cons d ds ih =>
      intro s c
      rw [List.foldl_cons, ih (sadd s d) c, mem_sadd]
      simp only [List.mem_cons]
      tauto

namespace PathNet

/-- The C4 invariant: the path-cell set is exactly the union of the cell
sequences of all stored segments. -/
def CellSetInv (st : NetState) : Prop :=
  ∀ c : PathCell, c ∈ st.pathCellSet ↔ ∃ seg ∈ st.segments, c ∈ seg.cells

theorem cellSetInv_append (st : NetState) (hinv : CellSetInv st)
    (fid tid : Nat) (path : List PathCell) :
    CellSetInv ⟨path.foldl sadd st.pathCellSet, st.segments ++ [⟨fid, tid, path⟩]⟩ := by
  intro c
  rw [mem_foldl_sadd, hinv c]
  constructor
  · rintro (⟨seg, hseg, hc⟩ | hc)
    · exact ⟨seg, by simp [hseg], hc⟩
    · exact ⟨⟨fid, tid, path⟩, by simp, hc⟩
  · rintro ⟨seg, hseg, hc⟩
    rcases List.mem_append.mp hseg with h | h
    · exact Or.inl ⟨seg, h, hc⟩
    · rcases List.mem_singleton.mp h with rfl
      exact Or.inr hc

theorem cellSetInv_tryBridge (g : GridState) (e : Entity) (st : NetState)
    (door : PathCell) (st' : NetState) (hinv : CellSetInv st)
    (h : tryBridge g e st door = some st') : CellSetInv st' := by
  unfold tryBridge at h
  split at h
  · cases h
  split at h
  · cases h
  split at h
  · cases h
  dsimp only at h
  split at h
  · cases h
  rcases Option.some_inj.mp h with rfl
  exact cellSetInv_append st hinv e.id _ _

theorem cellSetInv_connectToTarget (g : GridState) (e : Entity) (door : PathCell)
    (acc : NetState) (target : Entity × PathCell) (hinv : CellSetInv acc) :
    CellSetInv (connectToTarget g e door acc target) := by
  unfold connectToTarget
  by_cases hex : segmentExists acc e.id target.1.id
  · rwa [if_pos hex]
  rw [if_neg hex]
  by_cases hempty : findPath door.col door.row target.2.col target.2.row
      GRID_COLS GRID_ROWS (fun c r => isCellBlocked g c r) = []
  · rwa [if_pos hempty]
  rw [if_neg hempty]
  exact cellSetInv_append acc hinv e.id target.1.id _

theorem cellSetInv_foldl_connect (g : GridState) (e : Entity) (door : PathCell)
    (targets : List (Entity × PathCell)) :
    ∀ acc : NetState, CellSetInv acc →
      CellSetInv (targets.foldl (connectToTarget g e door) acc) := by
  induction targets with
  | nil => intro acc h; simpa using h
  | cons t ts ih =>
      intro acc h
      simpa using ih (connectToTarget g e door acc t)
        (cellSetInv_connectToTarget g e door acc t h)

theorem cellSetInv_addPaths (g : GridState) (e : Entity) (st : NetState)
    (hinv : CellSetInv st) : CellSetInv (addPathsForEntity g e st) := by
  unfold addPathsForEntity
  split
  · exact hinv
  split
  · exact hinv
  split
  · next st' heq => exact cellSetInv_tryBridge g e st _ st' hinv heq
  · dsimp only
    split
    · exact hinv
    · exact cellSetInv_foldl_connect g e _ _ st hinv

theorem cellSetInv_rebuild (cs : List PathCell) (segs : List Segment) :
    CellSetInv (rebuildCellSet ⟨cs, segs⟩) := by
  have key : ∀ (l : List Segment) (s0 : List PathCell) (c : PathCell),
      c ∈ l.foldl (fun s seg => seg.cells.foldl sadd s) s0 ↔
        c ∈ s0 ∨ ∃ seg ∈ l, c ∈ seg.cells := by
    intro l
    induction l with
    | nil => intro s0 c; simp
    | cons seg rest ih =>
        intro s0 c
        rw [List.foldl_cons, ih (seg.cells.foldl sadd s0) c, mem_foldl_sadd]
        constructor
        · rintro ((h | h) | ⟨sg, hsg, hc⟩)
          · exact Or.inl h
          · exact Or.inr ⟨seg, by simp, h⟩
          · exact Or.inr ⟨sg, by simp [hsg], hc⟩
        · rintro (h | ⟨sg, hsg, hc⟩)
          · exact Or.inl (Or.inl h)
          · rcases List.mem_cons.mp hsg with rfl | hsg'
            · exact Or.inl (Or.inr hc)
            · exact Or.inr ⟨sg, hsg', hc⟩
  intro c
  simpa [rebuildCellSet] using key segs [] c

theorem cellSetInv_orphanFold (g : GridState) (oids : List Nat) :
    ∀ acc : NetState × List Nat, CellSetInv acc.1 →
      CellSetInv ((oids.foldl (fun acc oid =>
        if MAX_NEIGHBOURS ≤ connectionCount acc.1 oid then acc
        else
          match getEntityById g oid with
          | none => acc
          | some orphan => (addPathsForEntity g orphan acc.1, acc.2 ++ [oid])) acc).1) := by
  induction oids with
  | nil => intro acc h; simpa using h
  | cons oid rest ih =>
      intro acc h
      rw [List.foldl_cons]
      apply ih
      by_cases hc : MAX_NEIGHBOURS ≤ connectionCount acc.1 oid
      · rwa [if_pos hc]
      rw [if_neg hc]
      cases hgo : getEntityById g oid with
      | none => exact h
      | some orphan => exact cellSetInv_addPaths g orphan acc.1 h

theorem cellSetInv_removeT (g : GridState) (entityId : Nat) (st : NetState) :
    CellSetInv (removePathsForEntityT g entityId st).1 := by
  unfold removePathsForEntityT
  exact cellSetInv_orphanFold g _ _ (cellSetInv_rebuild _ _)

end PathNet

theorem cellSetInv_empty : PathNet.CellSetInv ⟨[], []⟩ := by
  intro c
  simp

theorem cellSetInv_regen (g : GridState) (st : PathNet.NetState) :
    PathNet.CellSetInv (PathNet.regeneratePaths g st) := by
  unfold PathNet.regeneratePaths
  dsimp only
  split
  · exact cellSetInv_empty
  · have key : ∀ (es : List Entity) (acc : PathNet.NetState), PathNet.CellSetInv acc →
        PathNet.CellSetInv (es.foldl (fun acc e => PathNet.addPathsForEntity g e acc) acc) := by
      intro es
      induction es with
      | nil => intro acc h; simpa using h
      | cons e rest ih =>
          intro acc h
          rw [List.foldl_cons]
          exact ih _ (PathNet.cellSetInv_addPaths g e acc h)
    exact key _ _ cellSetInv_empty

/-- The path-network mutators claim C4 quantifies over.  Each operation
carries the grid state in effect at call time (the grid is ambient read-only
input to the path-network module and may change arbitrarily between calls). -/
inductive NetOp where
  | add (g : GridState) (e : Entity)
  | remove (g : GridState) (id : Nat)
  | regen (g : GridState)

/-- Apply one path-network operation. -/
def applyNetOp (st : PathNet.NetState) (op : NetOp) : PathNet.NetState :=
  match op with
  | .add g e => PathNet.addPathsForEntity g e st
  | .remove g id => PathNet.removePathsForEntity g id st
  | .regen g => PathNet.regeneratePaths g st

/-- **C4.**  Starting from the empty path network, after any sequence of
`addPathsForEntity`, `removePathsForEntity` and `regeneratePaths` calls (under
arbitrary grid states), the path-cell set is exactly the union of the cell
sequences of all stored segments. -/
theorem c4_cellSet_eq_union (ops : List NetOp) :
    ∀ c : PathCell, c ∈ (ops.foldl applyNetOp ⟨[], []⟩).pathCellSet ↔
      ∃ seg ∈ (ops.foldl applyNetOp ⟨[], []⟩).segments, c ∈ seg.cells := by
  have key : ∀ (l : List NetOp) (st : PathNet.NetState), PathNet.CellSetInv st →
      PathNet.CellSetInv (l.foldl applyNetOp st) := by
    intro l
    induction l with
    | nil => intro st h; simpa using h
    | cons op rest ih =>
        intro st h
        rw [List.foldl_cons]
        refine ih _ ?_
        cases op with
        | add g e => exact PathNet.cellSetInv_addPaths g e st h
        | remove g id => exact PathNet.cellSetInv_removeT g id st
        | regen g => exact cellSetInv_regen g st

  exact key ops ⟨[], []⟩ cellSetInv_empty

/-! ## Claim C5 — `removePathsForEntity` -/

/-- Grid well-formedness: `entitiesById` stores each entity under its own id
(`placeEntity` only ever calls `entitiesById.set(entity.id, entity)`). -/
def GridWf (g : GridState) : Prop :=
  ∀ p ∈ g.entitiesById, p.2.id = p.1

theorem alookup_isSome_of_mem {α β : Type} [DecidableEq α] (l : List (α × β))
    (k : α) (v : β) (h : (k, v) ∈ l) : (alookup l k).isSome := by
  induction l with
  | nil => cases h
  | cons p rest ih =>
      obtain ⟨k0, v0⟩ := p
      by_cases hk : k0 = k
      · simp [alookup, hk]
      · rcases List.mem_cons.mp h with heq | hmem
        · cases heq; simp at hk
        · simp only [alookup, if_neg hk]
          exact ih hmem

theorem mem_of_alookup_eq_some {α β : Type} [DecidableEq α] (l : List (α × β))
    (k : α) (v : β) (h : alookup l k = some v) : (k, v) ∈ l := by
  induction l with
  | nil => cases h
  | cons p rest ih =>
      obtain ⟨k0, v0⟩ := p
      by_cases hk : k0 = k
      · subst hk
        simp only [alookup, if_pos rfl] at h
        rcases Option.some_inj.mp h with rfl
        exact List.mem_cons_self _ _
      · simp only [alookup, if_neg hk] at h
        exact List.mem_cons_of_mem _ (ih h)

namespace PathNet

theorem mem_sinsert {α : Type} (key : α → Nat) (x y : α) (l : List α) :
    y ∈ sinsert key x l ↔ y = x ∨ y ∈ l := by
  induction l with
  | nil => simp [sinsert]
  | cons z zs ih =>
      by_cases h : key z ≤ key x
      · simp only [sinsert, if_pos h, List.mem_cons, ih]
        tauto
      · simp only [sinsert, if_neg h, List.mem_cons]

theorem mem_ssort {α : Type} (key : α → Nat) (l : List α) (y : α)
    (h : y ∈ ssortByKey key l) : y ∈ l := by
  have aux : ∀ (rest : List α) (acc : List α),
      y ∈ rest.foldl (fun acc x => sinsert key x acc) acc → y ∈ acc ∨ y ∈ rest := by
    intro rest
    induction rest with
    | nil => intro acc h; exact Or.inl h
    | cons z zs ih =>
        intro acc h
        rcases ih (sinsert key z acc) h with h1 | h1
        · rcases (mem_sinsert key z y acc).mp h1 with rfl | h2
          · exact Or.inr (List.mem_cons_self _ _)
          · exact Or.inl h2
        · exact Or.inr (List.mem_cons_of_mem _ h1)
  rcases aux l [] h with h1 | h1
  · cases h1
  · exact h1

/-- When the bridge shortcut fires, the new state is the old one plus exactly
one segment from `e.id` to the `fromId` of an already-stored segment. -/
theorem tryBridge_some_spec (g : GridState) (e : Entity) (st : NetState)
    (door : PathCell) (st' : NetState) (h : tryBridge g e st door = some st') :
    ∃ ownerId path, (∃ s0 ∈ st.segments, s0.fromId = ownerId) ∧
      st' = ⟨path.foldl sadd st.pathCellSet,
        st.segments ++ [⟨e.id, ownerId, path⟩]⟩ := by
  unfold tryBridge at h
  split at h
  · cases h
  split at h
  · cases h
  rename_i nearbyCell ownerId howner
  split at h
  · cases h
  dsimp only at h
  split at h
  · cases h
  rcases Option.some_inj.mp h with rfl
  refine ⟨ownerId, _, ?_, rfl⟩
  rcases Option.map_eq_some'.mp howner with ⟨s0, hfind, hfrom⟩
  exact ⟨s0, List.mem_of_find?_eq_some hfind, hfrom⟩

/-- The fallback loop only appends segments from `e.id` to an id drawn from
the processed target list. -/
theorem connectFold_seg (g : GridState) (e : Entity) (door : PathCell)
    (targets : List (Entity × PathCell)) :
    ∀ (acc : NetState) (s : Segment),
      s ∈ (targets.foldl (connectToTarget g e door) acc).segments →
      s ∈ acc.segments ∨ ∃ t ∈ targets, s.fromId = e.id ∧ s.toId = t.1.id := by
  induction targets with
  | nil => intro acc s h; exact Or.inl h
  | cons t ts ih =>
      intro acc s h
      rw [List.foldl_cons] at h
      rcases ih (connectToTarget g e door acc t) s h with h1 | ⟨t', ht', hs⟩
      · unfold connectToTarget at h1
        split at h1
        · exact Or.inl h1
        dsimp only at h1
        split at h1
        · exact Or.inl h1
        rcases List.mem_append.mp h1 with h2 | h2
        · exact Or.inl h2
        · rcases List.mem_singleton.mp h2 with rfl
          exact Or.inr ⟨t, List.mem_cons_self _ _, rfl, rfl⟩
      · exact Or.inr ⟨t', List.mem_cons_of_mem _ ht', hs⟩

/-- Members of the fallback candidate list are other placed non-wall entities
with a door. -/
theorem mem_others (g : GridState) (e : Entity) (t : Entity × PathCell)
    (h : t ∈ (getAllEntities g).filterMap (fun e2 =>
      if e2.id = e.id then none
      else if isWall e2 then none
      else (getDoorCell g e2).map (fun d => (e2, d)))) :
    t.1 ∈ getAllEntities g ∧ t.1.id ≠ e.id ∧ isWall t.1 = false := by
  rcases List.mem_filterMap.mp h with ⟨e2, he2, heq⟩
  by_cases h1 : e2.id = e.id
  · rw [if_pos h1] at heq; cases heq
  rw [if_neg h1] at heq
  by_cases h2 : isWall e2
  · rw [if_pos h2] at heq; cases heq
  rw [if_neg h2] at heq
  rcases Option.map_eq_some'.mp heq with ⟨d, _, hd⟩
  rcases hd.symm with rfl
  exact ⟨he2, h1, by simpa using h2⟩

/-- Every segment of `addPathsForEntity g e st` is an old segment, or a new
segment from `e.id` to either the `fromId` of an old segment (bridge case) or
the id of another placed non-wall entity (fallback case). -/
theorem addPaths_seg_characterization (g : GridState) (e : Entity) (st : NetState)
    (seg : Segment) (h : seg ∈ (addPathsForEntity g e st).segments) :
    seg ∈ st.segments ∨
      (seg.fromId = e.id ∧
        ((∃ s0 ∈ st.segments, seg.toId = s0.fromId) ∨
          (∃ e2 ∈ getAllEntities g, e2.id ≠ e.id ∧ isWall e2 = false ∧
            seg.toId = e2.id))) := by
  unfold addPathsForEntity at h
  split at h
  · exact Or.inl h
  split at h
  · exact Or.inl h
  split at h
  · next st' heq =>
      rcases tryBridge_some_spec g e st _ st' heq with ⟨ownerId, path, howner, rfl⟩
      rcases List.mem_append.mp h with h1 | h1
      · exact Or.inl h1
      · rcases List.mem_singleton.mp h1 with rfl
        obtain ⟨s0, hm, hf⟩ := howner
        exact Or.inr ⟨rfl, Or.inl ⟨s0, hm, hf.symm⟩⟩
  · dsimp only at h
    split at h
    · exact Or.inl h
    rcases connectFold_seg g e _ _ st seg h with h1 | ⟨t, ht, hfrom, hto⟩
    · exact Or.inl h1
    · have ht' := mem_others g e t (mem_ssort _ _ t (List.mem_of_mem_take ht))
      exact Or.inr ⟨hfrom, Or.inr ⟨t.1, ht'.1, ht'.2.1, ht'.2.2, hto⟩⟩

end PathNet

namespace PathNet

theorem connectFold_append (g : GridState) (e : Entity) (door : PathCell)
    (targets : List (Entity × PathCell)) :
    ∀ acc : NetState, ∃ new,
      (targets.foldl (connectToTarget g e door) acc).segments = acc.segments ++ new := by
  induction targets with
  | nil => intro acc; exact ⟨[], by simp⟩
  | cons t ts ih =>
      intro acc
      rw [List.foldl_cons]
      have hstep : ∃ mid, (connectToTarget g e door acc t).segments =
          acc.segments ++ mid := by
        unfold connectToTarget
        split
        · exact ⟨[], by simp⟩
        dsimp only
        split
        · exact ⟨[], by simp⟩
        · exact ⟨[⟨e.id, t.1.id, _⟩], rfl⟩
      obtain ⟨mid, hmid⟩ := hstep
      obtain ⟨new, hnew⟩ := ih (connectToTarget g e door acc t)
      exact ⟨mid ++ new, by rw [hnew, hmid, List.append_assoc]⟩

theorem addPaths_segments_append (g : GridState) (e : Entity) (st : NetState) :
    ∃ new, (addPathsForEntity g e st).segments = st.segments ++ new := by
  unfold addPathsForEntity
  split
  · exact ⟨[], by simp⟩
  split
  · exact ⟨[], by simp⟩
  split
  · next st' heq =>
      rcases tryBridge_some_spec g e st _ st' heq with ⟨ownerId, path, -, rfl⟩
      exact ⟨[⟨e.id, ownerId, path⟩], rfl⟩
  · dsimp only
    split
    · exact ⟨[], by simp⟩
    · exact connectFold_append g e _ _ st

theorem connectionCount_addPaths_le (g : GridState) (e : Entity) (st : NetState)
    (oid : Nat) : connectionCount st oid ≤ connectionCount (addPathsForEntity g e st) oid := by
  obtain ⟨new, hnew⟩ := addPaths_segments_append g e st
  unfold connectionCount
  rw [hnew, List.filter_append, List.length_append]
  exact Nat.le_add_right _ _

/-- The body of the orphan-reconnection loop. -/
def orphanStep (g : GridState) (acc : NetState × List Nat) (oid : Nat) :
    NetState × List Nat :=
  if MAX_NEIGHBOURS ≤ connectionCount acc.1 oid then acc
  else
    match getEntityById g oid with
    | none => acc
    | some orphan => (addPathsForEntity g orphan acc.1, acc.2 ++ [oid])

theorem removePathsForEntityT_eq (g : GridState) (entityId : Nat) (st : NetState) :
    removePathsForEntityT g entityId st =
      (orphanList st entityId).foldl (orphanStep g)
        (rebuildCellSet
          { pathCellSet := st.pathCellSet
            segments := st.segments.filter
              (fun s => ¬ (s.fromId = entityId ∨ s.toId = entityId)) }, []) := rfl

theorem orphanStep_count_mono (g : GridState) (acc : NetState × List Nat)
    (oid oid' : Nat) :
    connectionCount acc.1 oid' ≤ connectionCount (orphanStep g acc oid).1 oid' := by
  unfold orphanStep
  split
  · exact le_rfl
  split
  · exact le_rfl
  · exact connectionCount_addPaths_le g _ acc.1 oid'

theorem orphanFold_count_mono (g : GridState) (oids : List Nat) :
    ∀ (acc : NetState × List Nat) (oid' : Nat),
      connectionCount acc.1 oid' ≤
        connectionCount ((oids.foldl (orphanStep g) acc)).1 oid' := by
  induction oids with
  | nil => intro acc oid'; exact le_rfl
  | cons o os ih =>
      intro acc oid'
      rw [List.foldl_cons]
      exact le_trans (orphanStep_count_mono g acc o oid') (ih _ oid')

theorem orphanFold_trace_mono (g : GridState) (oids : List Nat) :
    ∀ (acc : NetState × List Nat) (x : Nat),
      x ∈ acc.2 → x ∈ ((oids.foldl (orphanStep g) acc)).2 := by
  induction oids with
  | nil => intro acc x h; exact h
  | cons o os ih =>
      intro acc x h
      rw [List.foldl_cons]
      refine ih _ x ?_
      unfold orphanStep
      split
      · exact h
      split
      · exact h
      · exact List.mem_append_left _ h

theorem orphanFold_rerun (g : GridState) (oids : List Nat) :
    ∀ (acc : NetState × List Nat) (oid : Nat), oid ∈ oids →
      (getEntityById g oid).isSome →
      connectionCount ((oids.foldl (orphanStep g) acc)).1 oid < MAX_NEIGHBOURS →
      oid ∈ ((oids.foldl (orphanStep g) acc)).2 := by
  induction oids with
  | nil => intro acc oid h; cases h
  | cons o os ih =>
      intro acc oid hmem hsome hcount
      rw [List.foldl_cons] at hcount ⊢
      rcases List.mem_cons.mp hmem with rfl | hmem'
      · by_cases hc : MAX_NEIGHBOURS ≤ connectionCount acc.1 oid
        · exfalso
          have h1 : connectionCount (orphanStep g acc oid).1 oid =
              connectionCount acc.1 oid := by
            unfold orphanStep
            rw [if_pos hc]
          have h2 := orphanFold_count_mono g os (orphanStep g acc oid) oid
          rw [h1] at h2
          omega
        · rcases Option.isSome_iff_exists.mp hsome with ⟨orphan, horphan⟩
          have hstep : (orphanStep g acc oid).2 = acc.2 ++ [oid] := by
            unfold orphanStep
            rw [if_neg hc, horphan]
          refine orphanFold_trace_mono g os _ oid ?_
          rw [hstep]
          exact List.mem_append_right _ (List.mem_singleton.mpr rfl)
      · exact ih _ oid hmem' hsome hcount

/-- Segments never mention the removed id: no-endpoint predicate. -/
def NoEndpoint (st : NetState) (id : Nat) : Prop :=
  ∀ seg ∈ st.segments, seg.fromId ≠ id ∧ seg.toId ≠ id

theorem addPaths_noEndpoint (g : GridState) (e : Entity) (st : NetState) (id : Nat)
    (hwf : GridWf g) (hid : getEntityById g id = none) (he : e.id ≠ id)
    (h : NoEndpoint st id) : NoEndpoint (addPathsForEntity g e st) id := by
  intro seg hseg
  rcases addPaths_seg_characterization g e st seg hseg with hold | ⟨hfrom, hto⟩
  · exact h seg hold
  refine ⟨by rw [hfrom]; exact he, ?_⟩
  rcases hto with ⟨s0, hs0, hto⟩ | ⟨e2, he2, _, _, hto⟩
  · rw [hto]; exact (h s0 hs0).1
  · rw [hto]
    intro hcontra
    rcases List.mem_map.mp he2 with ⟨⟨k, e2'⟩, hmem, hpair⟩
    have he2' : e2' = e2 := hpair
    subst he2'
    have hk : e2'.id = k := hwf _ hmem
    have hsome := alookup_isSome_of_mem g.entitiesById k e2' hmem
    have : k = id := by rw [← hk, hcontra]
    rw [this] at hsome
    unfold getEntityById at hid
    rw [hid] at hsome
    cases hsome

theorem orphanFold_noEndpoint (g : GridState) (oids : List Nat) (id : Nat)
    (hwf : GridWf g) (hid : getEntityById g id = none) :
    ∀ acc : NetState × List Nat, NoEndpoint acc.1 id →
      NoEndpoint ((oids.foldl (orphanStep g) acc)).1 id := by
  induction oids with
  | nil => intro acc h; exact h
  | cons o os ih =>
      intro acc h
      rw [List.foldl_cons]
      refine ih _ ?_
      unfold orphanStep
      split
      · exact h
      cases horphan : getEntityById g o with
      | none => exact h
      | some orphan =>
          have ho : orphan.id = o :=
            hwf _ (mem_of_alookup_eq_some g.entitiesById o orphan horphan)
          have hno : o ≠ id := by
            intro hcontra
            rw [hcontra] at horphan
            rw [horphan] at hid
            cases hid
          exact addPaths_noEndpoint g orphan acc.1 id hwf hid (ho ▸ hno) h

end PathNet

/-- **C5, counterexample.**  Take the network holding the single segment
`{fromId 1, toId 2}` and the *empty* grid (both endpoints already removed from
the grid).  After `removePathsForEntity(1)`, former neighbour `2` has zero
remaining segments — below `MAX_NEIGHBOURS` — yet `addPathsForEntity` was not
re-run on it: the loop skips neighbours that are no longer in the grid, so the
re-run trace is empty.  This contradicts the claim's «every former neighbour …
whose remaining segment count is below MAX_NEIGHBOURS has had
addPathsForEntity re-run on it». -/
theorem c5_counterexample :
    2 ∈ PathNet.orphanList ⟨[⟨0, 0⟩], [⟨1, 2, [⟨0, 0⟩]⟩]⟩ 1 ∧
    PathNet.connectionCount
      (PathNet.removePathsForEntityT ⟨[], []⟩ 1 ⟨[⟨0, 0⟩], [⟨1, 2, [⟨0, 0⟩]⟩]⟩).1 2 <
      PathNet.MAX_NEIGHBOURS ∧
    (PathNet.removePathsForEntityT ⟨[], []⟩ 1 ⟨[⟨0, 0⟩], [⟨1, 2, [⟨0, 0⟩]⟩]⟩).2 = [] := by
  decide

/-- **C5, amended.**  For a well-formed grid from which `entityId` has already
been removed: after `removePathsForEntity(entityId)` no stored segment has
`entityId` as either endpoint, and every former neighbour that is *still
present in the grid* and ends up with fewer than `MAX_NEIGHBOURS` segments has
had `addPathsForEntity` re-run on it (witnessed by the instrumented re-run
trace).  A former neighbour that was itself already removed from the grid is
skipped, not re-run. -/
theorem c5_removePaths_spec (g : GridState) (entityId : Nat) (st : PathNet.NetState)
    (hwf : GridWf g) (hid : getEntityById g entityId = none) :
    (∀ seg ∈ (PathNet.removePathsForEntityT g entityId st).1.segments,
      seg.fromId ≠ entityId ∧ seg.toId ≠ entityId) ∧
    (∀ oid ∈ PathNet.orphanList st entityId, (getEntityById g oid).isSome →
      PathNet.connectionCount (PathNet.removePathsForEntityT g entityId st).1 oid <
        PathNet.MAX_NEIGHBOURS →
      oid ∈ (PathNet.removePathsForEntityT g entityId st).2) := by
  constructor
  · rw [PathNet.removePathsForEntityT_eq]
    refine PathNet.orphanFold_noEndpoint g _ entityId hwf hid _ ?_
    intro seg hseg
    have := List.of_mem_filter hseg
    simp only [decide_not, Bool.and_eq_true, Bool.not_eq_true', decide_eq_false_iff_not,
      Bool.not_eq_true, decide_eq_true_eq] at this
    constructor
    · intro hc
      exact absurd (Or.inl hc) (by simpa using this)
    · intro hc
      exact absurd (Or.inr hc) (by simpa using this)
  · intro oid hmem hsome hcount
    rw [PathNet.removePathsForEntityT_eq] at hcount ⊢
    exact PathNet.orphanFold_rerun g _ _ oid hmem hsome hcount

/-- **C5, witness.**  Concrete instance: grid holding only entity `2` (a 2×2
house), network holding the single segment `{fromId 1, toId 2}`, and id `1`
already removed.  The amended theorem yields that neighbour `2` — present,
with zero remaining segments — is in the re-run trace. -/
theorem c5_witness :
    2 ∈ (PathNet.removePathsForEntityT
      (placeEntity ⟨[], []⟩ ⟨2, 6, 0, 2, 2, false⟩).2 1
      ⟨[⟨0, 0⟩], [⟨1, 2, [⟨0, 0⟩]⟩]⟩).2 := by
  refine (c5_removePaths_spec (placeEntity ⟨[], []⟩ ⟨2, 6, 0, 2, 2, false⟩).2 1
    ⟨[⟨0, 0⟩], [⟨1, 2, [⟨0, 0⟩]⟩]⟩ ?_ ?_).2 2 ?_ ?_ ?_
  · intro p hp
    fin_cases hp
    rfl
  · decide
  · decide
  · decide
  · decide

/-! ## Claim C6 — walls never join the road network -/

theorem mem_aset {α β : Type} [DecidableEq α] (l : List (α × β)) (k : α) (v : β)
    (p : α × β) (h : p ∈ aset l k v) : p ∈ l ∨ p = (k, v) := by
  induction l with
  | nil => simpa [aset] using h
  | cons q rest ih =>
      obtain ⟨k0, v0⟩ := q
      by_cases hk : k0 = k
      · simp only [aset, if_pos hk] at h
        rcases List.mem_cons.mp h with rfl | h1
        · exact Or.inr rfl
        · exact Or.inl (List.mem_cons_of_mem _ h1)
      · simp only [aset, if_neg hk] at h
        rcases List.mem_cons.mp h with rfl | h1
        · exact Or.inl (List.mem_cons_self _ _)
        · rcases ih h1 with h2 | h2
          · exact Or.inl (List.mem_cons_of_mem _ h2)
          · exact Or.inr h2

theorem alookup_eq_none_iff {α β : Type} [DecidableEq α] (l : List (α × β)) (k : α) :
    alookup l k = none ↔ k ∉ l.map Prod.fst := by
  induction l with
  | nil => simp [alookup]
  | cons p rest ih =>
      obtain ⟨k0, v0⟩ := p
      by_cases hk : k0 = k
      · subst hk
        simp [alookup]
      · simp [alookup, if_neg hk, ih, Ne.symm hk, hk]

theorem aset_of_fresh {α β : Type} [DecidableEq α] (l : List (α × β)) (k : α) (v : β)
    (h : k ∉ l.map Prod.fst) : aset l k v = l ++ [(k, v)] := by
  induction l with
  | nil => simp [aset]
  | cons p rest ih =>
      obtain ⟨k0, v0⟩ := p
      simp only [List.map_cons, List.mem_cons] at h
      push_neg at h
      have hne : ¬ k0 = k := fun hc => h.1 hc.symm
      simp only [aset, if_neg hne, List.cons_append]
      rw [ih h.2]

theorem aerase_sublist {α β : Type} [DecidableEq α] (l : List (α × β)) (k : α) :
    (aerase l k).Sublist l := by
  induction l with
  | nil => simp [aerase]
  | cons p rest ih =>
      obtain ⟨k0, v0⟩ := p
      by_cases hk : k0 = k
      · simp only [aerase, if_pos hk]
        exact List.sublist_cons_self _ _
      · simp only [aerase, if_neg hk]
        exact List.Sublist.cons₂ _ ih

theorem alookup_aerase_ne {α β : Type} [DecidableEq α] (l : List (α × β)) (k i : α)
    (h : i ≠ k) : alookup (aerase l k) i = alookup l i := by
  induction l with
  | nil => simp [aerase]
  | cons p rest ih =>
      obtain ⟨k0, v0⟩ := p
      by_cases hk : k0 = k
      · subst hk
        have hne : ¬ k0 = i := fun hc => h hc.symm
        simp [aerase, alookup, hne]
      · simp only [aerase, if_neg hk, alookup]
        by_cases hi : k0 = i
        · simp [if_pos hi]
        · simp only [if_neg hi]
          exact ih

theorem alookup_of_mem_nodup {α β : Type} [DecidableEq α] (l : List (α × β))
    (k : α) (v : β) (hnd : (l.map Prod.fst).Nodup) (h : (k, v) ∈ l) :
    alookup l k = some v := by
  induction l with
  | nil => cases h
  | cons p rest ih =>
      obtain ⟨k0, v0⟩ := p
      simp only [List.map_cons, List.nodup_cons] at hnd
      rcases List.mem_cons.mp h with heq | hmem
      · cases heq
        simp [alookup]
      · have hk : k0 ≠ k := by
          intro hc
          subst hc
          exact hnd.1 (List.mem_map.mpr ⟨(k0, v), hmem, rfl⟩)
        simp only [alookup, if_neg hk]
        exact ih hnd.2 hmem

/-- The world state: the grid plus the segment-based path network. -/
structure World where
  grid : GridState
  net : PathNet.NetState

/-- Orchestrated operations on the world.

Modelled from the spec: the callers that sequence grid mutation with
path-network updates are not part of the extracted sources, and the spec
prescribes the composition — «grid mutation (place/remove) must complete
before the corresponding path-network update is invoked», with removal
followed by `removePathsForEntity` and placement/`addPathsForEntity`
referring to placed entities.  Entity ids come from the shared
auto-incrementing counter (`entities/id.ts`), so a placed entity's id never
collides with an id already registered in the grid; `wfOps` captures exactly
that freshness. -/
inductive WOp where
  | place (e : Entity)
  | removeW (id : Nat)
  | addPaths (id : Nat)
  | regen

/-- Apply one orchestrated operation. -/
def applyWOp (w : World) (op : WOp) : World :=
  match op with
  | .place e => ⟨(placeEntity w.grid e).2, w.net⟩
  | .removeW id =>
      let g' := (removeEntity w.grid id).2
      ⟨g', PathNet.removePathsForEntity g' id w.net⟩
  | .addPaths id =>
      match getEntityById w.grid id with
      | none => w
      | some e => ⟨w.grid, PathNet.addPathsForEntity w.grid e w.net⟩
  | .regen => ⟨w.grid, PathNet.regeneratePaths w.grid w.net⟩

/-- Apply a sequence of operations. -/
def applyWOps (w : World) (ops : List WOp) : World :=
  ops.foldl applyWOp w

/-- Well-formed operation sequences: every placed entity's id is fresh
(the monotone id counter never reuses a registered id). -/
def wfOps (w : World) : List WOp → Bool
  | [] => true
  | op :: rest =>
      (match op with
       | .place e => (alookup w.grid.entitiesById e.id).isNone
       | _ => true) && wfOps (applyWOp w op) rest

/-- Both endpoints of every stored segment are ids of placed non-wall
entities. -/
def SegsOk (g : GridState) (st : PathNet.NetState) : Prop :=
  ∀ seg ∈ st.segments,
    (∃ e, getEntityById g seg.fromId = some e ∧ e.hasDefence = false) ∧
    (∃ e, getEntityById g seg.toId = some e ∧ e.hasDefence = false)

/-- The full reachability invariant for C6. -/
def WInv (w : World) : Prop :=
  GridWf w.grid ∧ (w.grid.entitiesById.map Prod.fst).Nodup ∧ SegsOk w.grid w.net

/-- Walls are skipped outright by `addPathsForEntity` (part of C6). -/
theorem addPaths_wall_noop (g : GridState) (e : Entity) (st : PathNet.NetState)
    (hw : PathNet.isWall e = true) : PathNet.addPathsForEntity g e st = st := by
  unfold PathNet.addPathsForEntity
  rw [if_pos hw]

theorem lookup_self_of_mem_getAll (g : GridState) (e : Entity) (hwf : GridWf g)
    (hnd : (g.entitiesById.map Prod.fst).Nodup) (h : e ∈ getAllEntities g) :
    getEntityById g e.id = some e := by
  rcases List.mem_map.mp h with ⟨⟨k, e'⟩, hmem, hpair⟩
  have he' : e' = e := hpair
  subst he'
  have hk : e'.id = k := hwf _ hmem
  unfold getEntityById
  rw [hk]
  exact alookup_of_mem_nodup g.entitiesById k e' hnd hmem

theorem addPaths_SegsOk (g : GridState) (e : Entity) (st : PathNet.NetState)
    (hwf : GridWf g) (hnd : (g.entitiesById.map Prod.fst).Nodup)
    (he : getEntityById g e.id = some e) (h : SegsOk g st) :
    SegsOk g (PathNet.addPathsForEntity g e st) := by
  by_cases hw : PathNet.isWall e
  · rw [addPaths_wall_noop g e st hw]
    exact h
  intro seg hseg
  rcases PathNet.addPaths_seg_characterization g e st seg hseg with hold | ⟨hfrom, hto⟩
  · exact h seg hold
  have hewall : e.hasDefence = false := by
    simpa [PathNet.isWall] using hw
  constructor
  · rw [hfrom]
    exact ⟨e, he, hewall⟩
  · rcases hto with ⟨s0, hs0, hto⟩ | ⟨e2, he2, _, hw2, hto⟩
    · rw [hto]
      exact (h s0 hs0).1
    · rw [hto]
      refine ⟨e2, lookup_self_of_mem_getAll g e2 hwf hnd he2, ?_⟩
      simpa [PathNet.isWall] using hw2

theorem placeEntity_entitiesById (g : GridState) (e : Entity) :
    (placeEntity g e).2.entitiesById = g.entitiesById ∨
    (placeEntity g e).2.entitiesById = aset g.entitiesById e.id e := by
  unfold placeEntity
  split
  · exact Or.inl rfl
  split
  · exact Or.inl rfl
  · exact Or.inr rfl

theorem removeEntity_entitiesById (g : GridState) (id : Nat) :
    (removeEntity g id).2.entitiesById = g.entitiesById ∨
    (removeEntity g id).2.entitiesById = aerase g.entitiesById id := by
  unfold removeEntity
  split
  · exact Or.inl rfl
  · exact Or.inr rfl

theorem placeEntity_wf (g : GridState) (e : Entity) (hwf : GridWf g) :
    GridWf (placeEntity g e).2 := by
  rcases placeEntity_entitiesById g e with h | h
  · intro p hp
    rw [h] at hp
    exact hwf p hp
  · intro p hp
    rw [h] at hp
    rcases mem_aset _ _ _ _ hp with h1 | rfl
    · exact hwf p h1
    · rfl

theorem placeEntity_nodup (g : GridState) (e : Entity)
    (hnd : (g.entitiesById.map Prod.fst).Nodup)
    (hfresh : alookup g.entitiesById e.id = none) :
    ((placeEntity g e).2.entitiesById.map Prod.fst).Nodup := by
  rcases placeEntity_entitiesById g e with h | h
  · rw [h]; exact hnd
  · rw [h, aset_of_fresh _ _ _ ((alookup_eq_none_iff _ _).mp hfresh)]
    rw [List.map_append]
    simp only [List.map_cons, List.map_nil]
    rw [List.nodup_append]
    refine ⟨hnd, List.nodup_singleton _, ?_⟩
    intro a ha hb
    rcases List.mem_singleton.mp hb with rfl
    exact (alookup_eq_none_iff _ _).mp hfresh ha

theorem removeEntity_wf (g : GridState) (id : Nat) (hwf : GridWf g) :
    GridWf (removeEntity g id).2 := by
  rcases removeEntity_entitiesById g id with h | h
  · intro p hp; rw [h] at hp; exact hwf p hp
  · intro p hp
    rw [h] at hp
    exact hwf p ((aerase_sublist g.entitiesById id).mem hp)

theorem removeEntity_nodup (g : GridState) (id : Nat)
    (hnd : (g.entitiesById.map Prod.fst).Nodup) :
    ((removeEntity g id).2.entitiesById.map Prod.fst).Nodup := by
  rcases removeEntity_entitiesById g id with h | h
  · rw [h]; exact hnd
  · rw [h]
    exact hnd.sublist ((aerase_sublist g.entitiesById id).map Prod.fst)

theorem placeEntity_lookup_stable (g : GridState) (e : Entity) (i : Nat)
    (hi : i ≠ e.id) : getEntityById (placeEntity g e).2 i = getEntityById g i := by
  rcases placeEntity_entitiesById g e with h | h
  · unfold getEntityById; rw [h]
  · unfold getEntityById
    rw [h]
    exact alookup_aset_ne _ _ _ _ (fun hc => hi hc.symm)

theorem removeEntity_lookup_stable (g : GridState) (id i : Nat)
    (hi : i ≠ id) : getEntityById (removeEntity g id).2 i = getEntityById g i := by
  rcases removeEntity_entitiesById g id with h | h
  · unfold getEntityById; rw [h]
  · unfold getEntityById
    rw [h]
    exact alookup_aerase_ne _ _ _ hi

theorem orphanFold_SegsOk (g : GridState) (oids : List Nat)
    (hwf : GridWf g) (hnd : (g.entitiesById.map Prod.fst).Nodup) :
    ∀ acc : PathNet.NetState × List Nat, SegsOk g acc.1 →
      SegsOk g ((oids.foldl (PathNet.orphanStep g) acc)).1 := by
  induction oids with
  | nil => intro acc h; exact h
  | cons o os ih =>
      intro acc h
      rw [List.foldl_cons]
      refine ih _ ?_
      unfold PathNet.orphanStep
      split
      · exact h
      cases horphan : getEntityById g o with
      | none => exact h
      | some orphan =>
          have ho : orphan.id = o :=
            hwf _ (mem_of_alookup_eq_some g.entitiesById o orphan horphan)
          exact addPaths_SegsOk g orphan acc.1 hwf hnd (ho ▸ horphan) h

theorem segsOk_empty (g : GridState) : SegsOk g ⟨[], []⟩ := by
  intro seg hseg
  cases hseg

theorem winv_applyWOp (w : World) (op : WOp) (h : WInv w)
    (hop : match op with
      | .place e => (alookup w.grid.entitiesById e.id).isNone = true
      | _ => True) : WInv (applyWOp w op) := by
  obtain ⟨hwf, hnd, hsegs⟩ := h
  cases op with
  | place e =>
      have hfresh : alookup w.grid.entitiesById e.id = none := by
        simpa [Option.isNone_iff_eq_none] using hop
      refine ⟨placeEntity_wf _ _ hwf, placeEntity_nodup _ _ hnd hfresh, ?_⟩
      intro seg hseg
      have hold := hsegs seg hseg
      have stable : ∀ i : Nat, (∃ e', getEntityById w.grid i = some e' ∧
          e'.hasDefence = false) →
          ∃ e', getEntityById (placeEntity w.grid e).2 i = some e' ∧
            e'.hasDefence = false := by
        rintro i ⟨e', he', hware⟩
        have hi : i ≠ e.id := by
          intro hc
          rw [hc] at he'
          unfold getEntityById at he'
          rw [hfresh] at he'
          cases he'
        rw [placeEntity_lookup_stable w.grid e i hi]
        exact ⟨e', he', hware⟩
      exact ⟨stable _ hold.1, stable _ hold.2⟩
  | removeW id =>
      have hwf' := removeEntity_wf w.grid id hwf
      have hnd' := removeEntity_nodup w.grid id hnd
      refine ⟨hwf', hnd', ?_⟩
      show SegsOk (removeEntity w.grid id).2
        (PathNet.removePathsForEntity (removeEntity w.grid id).2 id w.net)
      unfold PathNet.removePathsForEntity
      rw [PathNet.removePathsForEntityT_eq]
      refine orphanFold_SegsOk _ _ hwf' hnd' _ ?_
      intro seg hseg
      simp only [PathNet.rebuildCellSet] at hseg
      have hmem := List.of_mem_filter hseg
      have hmem' : seg ∈ w.net.segments := List.mem_of_mem_filter hseg
      simp only [decide_not, Bool.and_eq_true, Bool.not_eq_true', decide_eq_false_iff_not,
        decide_eq_true_eq] at hmem
      have hnot : ¬ (seg.fromId = id ∨ seg.toId = id) := by simpa using hmem
      have hold := hsegs seg hmem'
      have stable : ∀ i : Nat, i ≠ id → (∃ e', getEntityById w.grid i = some e' ∧
          e'.hasDefence = false) →
          ∃ e', getEntityById (removeEntity w.grid id).2 i = some e' ∧
            e'.hasDefence = false := by
        rintro i hi ⟨e', he', hware⟩
        rw [removeEntity_lookup_stable w.grid id i hi]
        exact ⟨e', he', hware⟩
      exact ⟨stable _ (fun hc => hnot (Or.inl hc)) hold.1,
        stable _ (fun hc => hnot (Or.inr hc)) hold.2⟩
  | addPaths id =>
      cases he : getEntityById w.grid id with
      | none =>
          simp only [applyWOp, he]
          exact ⟨hwf, hnd, hsegs⟩
      | some e =>
          simp only [applyWOp, he]
          refine ⟨hwf, hnd, ?_⟩
          have hid : e.id = id :=
            hwf _ (mem_of_alookup_eq_some w.grid.entitiesById id e he)
          exact addPaths_SegsOk w.grid e w.net hwf hnd (hid ▸ he) hsegs
  | regen =>
      refine ⟨hwf, hnd, ?_⟩
      show SegsOk w.grid (PathNet.regeneratePaths w.grid w.net)
      unfold PathNet.regeneratePaths
      dsimp only
      split
      · exact segsOk_empty _
      · have key : ∀ (es : List Entity) (acc : PathNet.NetState),
            (∀ e ∈ es, getEntityById w.grid e.id = some e) → SegsOk w.grid acc →
            SegsOk w.grid (es.foldl
              (fun acc e => PathNet.addPathsForEntity w.grid e acc) acc) := by
          intro es
          induction es with
          | nil => intro acc _ h; exact h
          | cons e rest ih =>
              intro acc hes h
              rw [List.foldl_cons]
              exact ih _ (fun e' he' => hes e' (List.mem_cons_of_mem _ he'))
                (addPaths_SegsOk w.grid e acc hwf hnd
                  (hes e (List.mem_cons_self _ _)) h)
        exact key _ _ (fun e he => lookup_self_of_mem_getAll w.grid e hwf hnd he)
          (segsOk_empty _)

theorem winv_applyWOps (ops : List WOp) :
    ∀ w : World, WInv w → wfOps w ops = true → WInv (applyWOps w ops) := by
  induction ops with
  | nil => intro w h _; exact h
  | cons op rest ih =>
      intro w h hwfops
      have hsplit := Bool.and_eq_true_iff.mp hwfops
      refine ih (applyWOp w op) (winv_applyWOp w op h ?_) hsplit.2
      cases op with
      | place e => exact hsplit.1
      | removeW id => trivial
      | addPaths id => trivial
      | regen => trivial

/-- **C6.**  Walls never join the road network: (i) `addPathsForEntity` on a
wall returns without touching the segment list or the path-cell set, and
(ii) in every state of the path network reachable from the empty world by
well-formed operation sequences (placement with fresh ids, removal followed
by `removePathsForEntity`, `addPathsForEntity`, `regeneratePaths`), both
endpoints of every stored segment are ids of placed *non-wall* entities — in
particular no segment endpoint is a wall. -/
theorem c6_walls_never_join :
    (∀ (g : GridState) (e : Entity) (st : PathNet.NetState), PathNet.isWall e = true →
      PathNet.addPathsForEntity g e st = st) ∧
    ∀ ops : List WOp, wfOps ⟨⟨[], []⟩, ⟨[], []⟩⟩ ops = true →
      ∀ seg ∈ (applyWOps ⟨⟨[], []⟩, ⟨[], []⟩⟩ ops).net.segments,
        (∃ e, getEntityById (applyWOps ⟨⟨[], []⟩, ⟨[], []⟩⟩ ops).grid seg.fromId = some e ∧
          e.hasDefence = false) ∧
        (∃ e, getEntityById (applyWOps ⟨⟨[], []⟩, ⟨[], []⟩⟩ ops).grid seg.toId = some e ∧
          e.hasDefence = false) := by
  constructor
  · exact addPaths_wall_noop
  · intro ops hops
    have h0 : WInv ⟨⟨[], []⟩, ⟨[], []⟩⟩ := by
      refine ⟨?_, ?_, segsOk_empty _⟩
      · intro p hp; cases hp
      · simp
    exact (winv_applyWOps ops _ h0 hops).2.2

/-- **C6, witness.**  A concrete well-formed sequence: place two houses,
connect the second (creating one segment), place a wall, then regenerate.
Every stored segment's endpoints map to placed non-wall entities. -/
theorem c6_witness :
    wfOps ⟨⟨[], []⟩, ⟨[], []⟩⟩
      [WOp.place ⟨1, 0, 0, 2, 2, false⟩, WOp.place ⟨2, 6, 0, 2, 2, false⟩,
        WOp.addPaths 2, WOp.place ⟨3, 20, 20, 1, 1, true⟩, WOp.regen] = true ∧
    ∀ seg ∈ (applyWOps ⟨⟨[], []⟩, ⟨[], []⟩⟩
      [WOp.place ⟨1, 0, 0, 2, 2, false⟩, WOp.place ⟨2, 6, 0, 2, 2, false⟩,
        WOp.addPaths 2, WOp.place ⟨3, 20, 20, 1, 1, true⟩, WOp.regen]).net.segments,
      (∃ e, getEntityById (applyWOps ⟨⟨[], []⟩, ⟨[], []⟩⟩
        [WOp.place ⟨1, 0, 0, 2, 2, false⟩, WOp.place ⟨2, 6, 0, 2, 2, false⟩,
          WOp.addPaths 2, WOp.place ⟨3, 20, 20, 1, 1, true⟩, WOp.regen]).grid
          seg.fromId = some e ∧ e.hasDefence = false) ∧
      (∃ e, getEntityById (applyWOps ⟨⟨[], []⟩, ⟨[], []⟩⟩
        [WOp.place ⟨1, 0, 0, 2, 2, false⟩, WOp.place ⟨2, 6, 0, 2, 2, false⟩,
          WOp.addPaths 2, WOp.place ⟨3, 20, 20, 1, 1, true⟩, WOp.regen]).grid
          seg.toId = some e ∧ e.hasDefence = false) := by
  refine ⟨by decide, c6_walls_never_join.2 _ (by decide)⟩

/-! ## Claims C1 and C9 — A* correctness

Specification layer: 4-directional reachability through in-bounds unblocked
cells, and the graph distance.  `start` is the source cell; a move may leave
any cell but must land on an in-bounds, unblocked cell (the pathfinder never
tests the start cell itself — relevant to C9). -/

section AStarSpec

variable (gridCols gridRows : Nat) (blocked : Int → Int → Bool)

/-- A cell lies inside `[0,gridCols)×[0,gridRows)`. -/
def inBoundsCell (c : PathCell) : Prop :=
  0 ≤ c.col ∧ c.col < (gridCols : Int) ∧ 0 ≤ c.row ∧ c.row < (gridRows : Int)

/-- One legal move: a 4-directional step landing on an in-bounds, unblocked
cell. -/
def stepOK (a b : PathCell) : Prop :=
  (∃ d ∈ DIRS, b = ⟨a.col + d.1, a.row + d.2⟩) ∧
    inBoundsCell gridCols gridRows b ∧ blocked b.col b.row = false

/-- `ReachFrom a t n`: there is a walk of exactly `n` legal moves from `a`
to `t`. -/
inductive ReachFrom (a : PathCell) : PathCell → Nat → Prop where
  | refl : ReachFrom a a 0
  | tail {b c : PathCell} {n : Nat} :
      ReachFrom a b n → stepOK gridCols gridRows blocked b c →
      ReachFrom a c (n + 1)

/-- `d` is the 4-directional shortest-path distance from `a` to `t`. -/
def hasDist (a t : PathCell) (d : Nat) : Prop :=
  ReachFrom gridCols gridRows blocked a t d ∧
    ∀ m, ReachFrom gridCols gridRows blocked a t m → d ≤ m

theorem hasDist_unique {a t : PathCell} {d₁ d₂ : Nat}
    (h₁ : hasDist gridCols gridRows blocked a t d₁)
    (h₂ : hasDist gridCols gridRows blocked a t d₂) : d₁ = d₂ :=
  Nat.le_antisymm (h₁.2 d₂ h₂.1) (h₂.2 d₁ h₁.1)

theorem hasDist_exists {a t : PathCell}
    (h : ∃ n, ReachFrom gridCols gridRows blocked a t n) :
    ∃ d, hasDist gridCols gridRows blocked a t d := by
  classical
  refine ⟨Nat.find h, Nat.find_spec h, fun m hm => Nat.find_le hm⟩

theorem reachFrom_trans {a b c : PathCell} {n m : Nat}
    (h₁ : ReachFrom gridCols gridRows blocked a b n)
    (h₂ : ReachFrom gridCols gridRows blocked b c m) :
    ReachFrom gridCols gridRows blocked a c (n + m) := by
  induction h₂ with
  | refl => exact h₁
  | tail hr hs ih => exact .tail ih hs

/-- Decompose the last move of a non-trivial walk. -/
theorem reachFrom_last {a t : PathCell} {n : Nat}
    (h : ReachFrom gridCols gridRows blocked a t (n + 1)) :
    ∃ w, ReachFrom gridCols gridRows blocked a w n ∧
      stepOK gridCols gridRows blocked w t := by
  cases h with
  | tail hr hs => exact ⟨_, hr, hs⟩

theorem reachFrom_zero {a t : PathCell}
    (h : ReachFrom gridCols gridRows blocked a t 0) : t = a := by
  cases h
  rfl

/-- A prefix of a shortest walk is itself shortest. -/
theorem hasDist_pred {a t : PathCell} {n : Nat}
    (h : hasDist gridCols gridRows blocked a t (n + 1)) :
    ∃ w, hasDist gridCols gridRows blocked a w n ∧
      stepOK gridCols gridRows blocked w t := by
  obtain ⟨w, hw, hs⟩ := reachFrom_last gridCols gridRows blocked h.1
  refine ⟨w, ⟨hw, fun m hm => ?_⟩, hs⟩
  by_contra hlt
  push_neg at hlt
  have : ReachFrom gridCols gridRows blocked a t (m + 1) := .tail hm hs
  have := h.2 (m + 1) this
  omega

/-- Each legal move changes the Manhattan distance to a fixed target by at
most one. -/
theorem manhattan_step_le {a b : PathCell} (ec er : Int)
    (h : stepOK gridCols gridRows blocked a b) :
    manhattan a.col a.row ec er ≤ manhattan b.col b.row ec er + 1 := by
  obtain ⟨⟨d, hd, rfl⟩, -, -⟩ := h
  simp only [DIRS, List.mem_cons, List.not_mem_nil, or_false] at hd
  rcases hd with rfl | rfl | rfl | rfl <;> (simp only [manhattan]; omega)

/-- Heuristic consistency along a walk: the Manhattan distance from the walk's
source to the target is at most the walk length plus the Manhattan distance
from the walk's endpoint. -/
theorem manhattan_le_reach_add {a t : PathCell} {m : Nat} (ec er : Int)
    (h : ReachFrom gridCols gridRows blocked a t m) :
    manhattan a.col a.row ec er ≤ m + manhattan t.col t.row ec er := by
  induction h with
  | refl => omega
  | tail hr hs ih =>
      have := manhattan_step_le gridCols gridRows blocked ec er hs
      omega

/-- The Manhattan distance lower-bounds every walk length. -/
theorem manhattan_le_reach {a t : PathCell} {m : Nat}
    (h : ReachFrom gridCols gridRows blocked a t m) :
    manhattan a.col a.row t.col t.row ≤ m := by
  have := manhattan_le_reach_add gridCols gridRows blocked t.col t.row h
  simpa [manhattan] using this

end AStarSpec

/-! ### `popBest` -/

theorem popBest_perm (m : List (PathCell × Node)) :
    ∀ (l : List PathCell), l ≠ [] → l.Perm ((popBest m l).1 :: (popBest m l).2) := by
  intro l
  induction l with
  | nil => intro h; cases h rfl
  | cons x xs ih =>
      intro _
      cases xs with
      | nil => simp [popBest]
      | cons y rest =>
          have hp := ih (by simp)
          by_cases hc : fOf m (popBest m (y :: rest)).1 < fOf m x
          · have hres : popBest m (x :: y :: rest) =
                ((popBest m (y :: rest)).1, x :: (popBest m (y :: rest)).2) := by
              simp [popBest, hc]
            rw [hres]
            exact (hp.cons x).trans (List.Perm.swap _ _ _)
          · have hres : popBest m (x :: y :: rest) = (x, y :: rest) := by
              simp [popBest, hc]
            rw [hres]

theorem popBest_min (m : List (PathCell × Node)) :
    ∀ (l : List PathCell), ∀ y ∈ l, fOf m (popBest m l).1 ≤ fOf m y := by
  intro l
  induction l with
  | nil => intro y hy; cases hy
  | cons x xs ih =>
      intro y hy
      cases xs with
      | nil =>
          rcases List.mem_singleton.mp hy with rfl
          simp [popBest]
      | cons y0 rest =>
          by_cases hc : fOf m (popBest m (y0 :: rest)).1 < fOf m x
          · have hres : popBest m (x :: y0 :: rest) =
                ((popBest m (y0 :: rest)).1, x :: (popBest m (y0 :: rest)).2) := by
              simp [popBest, hc]
            rw [hres]
            rcases List.mem_cons.mp hy with rfl | hy'
            · exact le_of_lt hc
            · exact ih y hy'
          · have hres : popBest m (x :: y0 :: rest) = (x, y0 :: rest) := by
              simp [popBest, hc]
            rw [hres]
            rcases List.mem_cons.mp hy with rfl | hy'
            · exact le_rfl
            · exact le_trans (not_lt.mp hc) (ih y hy')

/-! ### The A* loop invariant -/

/-- Heuristic cost: Manhattan distance to the goal cell. -/
def hCost (endCol endRow : Int) (c : PathCell) : Nat :=
  manhattan c.col c.row endCol endRow

section AStarInv

variable (gridCols gridRows : Nat) (endCol endRow : Int)
variable (blocked : Int → Int → Bool) (start : PathCell)

/-- The A* loop invariant (without the expansion-completeness clause, which is
re-established only after a popped node's four neighbours are processed). -/
structure BaseInv (st : AState) : Prop where
  openNodup : st.openList.Nodup
  closedNodup : st.closed.Nodup
  disj : ∀ k ∈ st.openList, k ∉ st.closed
  keysEq : ∀ k : PathCell, (alookup st.nodeMap k).isSome ↔
      (k ∈ st.openList ∨ k ∈ st.closed)
  coh : ∀ k n, alookup st.nodeMap k = some n → n.col = k.col ∧ n.row = k.row
  fEq : ∀ k n, alookup st.nodeMap k = some n → n.f = n.g + hCost endCol endRow k
  gReal : ∀ k n, alookup st.nodeMap k = some n →
      ReachFrom gridCols gridRows blocked start k n.g
  parentNone : ∀ k n, alookup st.nodeMap k = some n → n.parentKey = none →
      k = start ∧ n.g = 0
  parentSome : ∀ k n p, alookup st.nodeMap k = some n → n.parentKey = some p →
      p ∈ st.closed ∧ ∃ pn, alookup st.nodeMap p = some pn ∧ n.g = pn.g + 1 ∧
        stepOK gridCols gridRows blocked p k
  startMem : ∃ n0 : Node, alookup st.nodeMap start = some n0 ∧ n0.g = 0
  nonStartValid : ∀ k n, alookup st.nodeMap k = some n → k ≠ start →
      inBoundsCell gridCols gridRows k ∧ blocked k.col k.row = false
  closedOpt : ∀ k ∈ st.closed, ∀ n, alookup st.nodeMap k = some n →
      hasDist gridCols gridRows blocked start k n.g
  endNotClosed : (⟨endCol, endRow⟩ : PathCell) ∉ st.closed
  startState : start ∈ st.closed ∨ st.openList = [start]

/-- Expansion completeness at a node: every legal move out of `w` leads to a
stored node whose `g` is at most `g(w) + 1`. -/
def ExpandedAt (st : AState) (w : PathCell) : Prop :=
  ∀ z, stepOK gridCols gridRows blocked w z →
    ∃ wn zn, alookup st.nodeMap w = some wn ∧ alookup st.nodeMap z = some zn ∧
      zn.g ≤ wn.g + 1

/-- The full loop invariant. -/
def AInv (st : AState) : Prop :=
  BaseInv gridCols gridRows endCol endRow blocked start st ∧
    ∀ w ∈ st.closed, ExpandedAt gridCols gridRows blocked st w

end AStarInv

theorem isSome_aset {α β : Type} [DecidableEq α] (m : List (α × β)) (k k' : α) (v : β) :
    (alookup (aset m k v) k').isSome ↔ k' = k ∨ (alookup m k').isSome := by
  by_cases h : k = k'
  · subst h
    simp [alookup_aset_self]
  · rw [alookup_aset_ne m k k' v h]
    constructor
    · exact Or.inr
    · rintro (hc | hs)
      · exact absurd hc.symm h
      · exact hs

section RelaxMain

variable {gridCols gridRows : Nat} {endCol endRow : Int}
variable {blocked : Int → Int → Bool} {start : PathCell}

/-- One `relax` call preserves the base invariant, leaves `closed` unchanged,
never loses a stored node nor increases its `g`, never touches closed nodes,
and — when the processed neighbour is a legal move target — leaves it stored
with `g ≤ g(cur) + 1`. -/
theorem relax_main (st : AState) (cur : PathCell) (curNode : Node) (d : Int × Int)
    (hB : BaseInv gridCols gridRows endCol endRow blocked start st)
    (hcl : cur ∈ st.closed)
    (hlk : alookup st.nodeMap cur = some curNode)
    (hdist : hasDist gridCols gridRows blocked start cur curNode.g)
    (hd : d ∈ DIRS)
    (hstart : start ∈ st.closed) :
    BaseInv gridCols gridRows endCol endRow blocked start
      (relax gridCols gridRows endCol endRow blocked cur curNode.g st d) ∧
    (relax gridCols gridRows endCol endRow blocked cur curNode.g st d).closed =
      st.closed ∧
    (∀ z zn, alookup st.nodeMap z = some zn →
      ∃ zn', alookup (relax gridCols gridRows endCol endRow blocked cur
        curNode.g st d).nodeMap z = some zn' ∧ zn'.g ≤ zn.g) ∧
    (∀ w ∈ st.closed, alookup (relax gridCols gridRows endCol endRow blocked cur
      curNode.g st d).nodeMap w = alookup st.nodeMap w) ∧
    (stepOK gridCols gridRows blocked cur ⟨cur.col + d.1, cur.row + d.2⟩ →
      ∃ zn, alookup (relax gridCols gridRows endCol endRow blocked cur
        curNode.g st d).nodeMap ⟨cur.col + d.1, cur.row + d.2⟩ = some zn ∧
        zn.g ≤ curNode.g + 1) := by
  have mono_triv : ∀ z zn, alookup st.nodeMap z = some zn →
      ∃ zn', alookup st.nodeMap z = some zn' ∧ zn'.g ≤ zn.g :=
    fun z zn h => ⟨zn, h, le_rfl⟩
  unfold relax
  dsimp only
  by_cases hoob : cur.col + d.1 < 0 ∨ (gridCols : Int) ≤ cur.col + d.1 ∨
      cur.row + d.2 < 0 ∨ (gridRows : Int) ≤ cur.row + d.2
  · rw [if_pos hoob]
    refine ⟨hB, rfl, mono_triv, fun w _ => rfl, fun hstep => ?_⟩
    exfalso
    obtain ⟨-, hib, -⟩ := hstep
    obtain ⟨h1, h2, h3, h4⟩ := hib
    dsimp only at h1 h2 h3 h4
    omega
  rw [if_neg hoob]
  by_cases hclosed : (⟨cur.col + d.1, cur.row + d.2⟩ : PathCell) ∈ st.closed
  · rw [if_pos hclosed]
    refine ⟨hB, rfl, mono_triv, fun w _ => rfl, fun hstep => ?_⟩
    have hsome : (alookup st.nodeMap ⟨cur.col + d.1, cur.row + d.2⟩).isSome :=
      (hB.keysEq _).mpr (Or.inr hclosed)
    obtain ⟨zn, hzn⟩ := Option.isSome_iff_exists.mp hsome
    refine ⟨zn, hzn, ?_⟩
    have hzopt := hB.closedOpt _ hclosed zn hzn
    exact hzopt.2 _ (.tail hdist.1 hstep)
  rw [if_neg hclosed]
  by_cases hbl : blocked (cur.col + d.1) (cur.row + d.2) = true
  · rw [if_pos hbl]
    refine ⟨hB, rfl, mono_triv, fun w _ => rfl, fun hstep => ?_⟩
    exfalso
    have := hstep.2.2
    dsimp only at this
    rw [this] at hbl
    cases hbl
  rw [if_neg hbl]
  have hbl' : blocked (cur.col + d.1) (cur.row + d.2) = false :=
    Bool.eq_false_iff.mpr hbl
  have hstepOK : stepOK gridCols gridRows blocked cur
      ⟨cur.col + d.1, cur.row + d.2⟩ := by
    refine ⟨⟨d, hd, rfl⟩, ?_, hbl'⟩
    refine ⟨?_, ?_, ?_, ?_⟩ <;> (dsimp only; omega)
  have hne_start : (⟨cur.col + d.1, cur.row + d.2⟩ : PathCell) ≠ start :=
    fun hc => hclosed (by rw [hc]; exact hstart)
  have hne_cur : (⟨cur.col + d.1, cur.row + d.2⟩ : PathCell) ≠ cur :=
    fun hc => hclosed (by rw [hc]; exact hcl)
  cases hex : alookup st.nodeMap ⟨cur.col + d.1, cur.row + d.2⟩ with
  | some existing =>
      dsimp only
      by_cases hge : existing.g ≤ curNode.g + 1
      · rw [if_pos hge]
        exact ⟨hB, rfl, mono_triv, fun w _ => rfl, fun _ => ⟨existing, hex, hge⟩⟩
      · rw [if_neg hge]
        have hlt : curNode.g + 1 < existing.g := Nat.lt_of_not_le hge
        -- the updated node
        refine ⟨?_, rfl, ?_, ?_, ?_⟩
        · -- BaseInv
          have hself := alookup_aset_self st.nodeMap
            (⟨cur.col + d.1, cur.row + d.2⟩ : PathCell)
            { existing with
              g := curNode.g + 1
              f := curNode.g + 1 + manhattan (cur.col + d.1) (cur.row + d.2) endCol endRow
              parentKey := some cur }
          have hother : ∀ k : PathCell, k ≠ ⟨cur.col + d.1, cur.row + d.2⟩ →
              alookup (aset st.nodeMap ⟨cur.col + d.1, cur.row + d.2⟩
                { existing with
                  g := curNode.g + 1
                  f := curNode.g + 1 +
                    manhattan (cur.col + d.1) (cur.row + d.2) endCol endRow
                  parentKey := some cur }) k = alookup st.nodeMap k :=
            fun k hk => alookup_aset_ne _ _ _ _ (fun hc => hk hc.symm)
          refine
            { openNodup := hB.openNodup
              closedNodup := hB.closedNodup
              disj := hB.disj
              keysEq := ?_
              coh := ?_
              fEq := ?_
              gReal := ?_
              parentNone := ?_
              parentSome := ?_
              startMem := ?_
              nonStartValid := ?_
              closedOpt := ?_
              endNotClosed := hB.endNotClosed
              startState := Or.inl hstart }
          · intro k
            rw [isSome_aset]
            constructor
            · rintro (rfl | hs)
              · exact (hB.keysEq _).mp (Option.isSome_iff_exists.mpr ⟨existing, hex⟩)
              · exact (hB.keysEq k).mp hs
            · intro h
              exact Or.inr ((hB.keysEq k).mpr h)
          · intro k n hkn
            by_cases hk : k = (⟨cur.col + d.1, cur.row + d.2⟩ : PathCell)
            · subst hk
              rw [hself] at hkn
              rcases Option.some_inj.mp hkn with rfl
              exact hB.coh _ existing hex
            · rw [hother k hk] at hkn
              exact hB.coh k n hkn
          · intro k n hkn
            by_cases hk : k = (⟨cur.col + d.1, cur.row + d.2⟩ : PathCell)
            · subst hk
              rw [hself] at hkn
              rcases Option.some_inj.mp hkn with rfl
              rfl
            · rw [hother k hk] at hkn
              exact hB.fEq k n hkn
          · intro k n hkn
            by_cases hk : k = (⟨cur.col + d.1, cur.row + d.2⟩ : PathCell)
            · subst hk
              rw [hself] at hkn
              rcases Option.some_inj.mp hkn with rfl
              exact .tail (hB.gReal cur curNode hlk) hstepOK
            · rw [hother k hk] at hkn
              exact hB.gReal k n hkn
          · intro k n hkn hnone
            by_cases hk : k = (⟨cur.col + d.1, cur.row + d.2⟩ : PathCell)
            · subst hk
              rw [hself] at hkn
              rcases Option.some_inj.mp hkn with rfl
              cases hnone
            · rw [hother k hk] at hkn
              exact hB.parentNone k n hkn hnone
          · intro k n p hkn hp
            by_cases hk : k = (⟨cur.col + d.1, cur.row + d.2⟩ : PathCell)
            · subst hk
              rw [hself] at hkn
              rcases Option.some_inj.mp hkn with rfl
              rcases Option.some_inj.mp hp with rfl
              refine ⟨hcl, curNode, ?_, rfl, hstepOK⟩
              rw [hother cur (Ne.symm hne_cur)]
              exact hlk
            · rw [hother k hk] at hkn
              obtain ⟨hpc, pn, hpn, hg, hs⟩ := hB.parentSome k n p hkn hp
              have hpne : p ≠ (⟨cur.col + d.1, cur.row + d.2⟩ : PathCell) :=
                fun hc => hclosed (hc ▸ hpc)
              exact ⟨hpc, pn, by rw [hother p hpne]; exact hpn, hg, hs⟩
          · obtain ⟨n0, hn0, hg0⟩ := hB.startMem
            exact ⟨n0, by rw [hother start (Ne.symm hne_start)]; exact hn0, hg0⟩
          · intro k n hkn hkne
            by_cases hk : k = (⟨cur.col + d.1, cur.row + d.2⟩ : PathCell)
            · subst hk
              exact ⟨hstepOK.2.1, hstepOK.2.2⟩
            · rw [hother k hk] at hkn
              exact hB.nonStartValid k n hkn hkne
          · intro k hkc n hkn
            have hkne : k ≠ (⟨cur.col + d.1, cur.row + d.2⟩ : PathCell) :=
              fun hc => hclosed (hc ▸ hkc)
            rw [hother k hkne] at hkn
            exact hB.closedOpt k hkc n hkn
        · -- g-monotone
          intro z zn hz
          by_cases hk : z = (⟨cur.col + d.1, cur.row + d.2⟩ : PathCell)
          · subst hk
            rw [hex] at hz
            rcases Option.some_inj.mp hz with rfl
            exact ⟨_, alookup_aset_self _ _ _, by dsimp only; omega⟩
          · exact ⟨zn, by
              rw [alookup_aset_ne _ _ _ _ (fun hc => hk hc.symm)]
              exact hz, le_rfl⟩
        · -- closed nodes untouched
          intro w hw
          have hwne : w ≠ (⟨cur.col + d.1, cur.row + d.2⟩ : PathCell) :=
            fun hc => hclosed (hc ▸ hw)
          exact alookup_aset_ne _ _ _ _ (fun hc => hwne hc.symm)
        · -- processed target
          intro _
          exact ⟨_, alookup_aset_self _ _ _, by dsimp only; omega⟩
  | none =>
      dsimp only
      have hnotmem : (⟨cur.col + d.1, cur.row + d.2⟩ : PathCell) ∉ st.openList ∧
          (⟨cur.col + d.1, cur.row + d.2⟩ : PathCell) ∉ st.closed := by
        have : ¬ ((alookup st.nodeMap ⟨cur.col + d.1, cur.row + d.2⟩).isSome) := by
          rw [hex]; simp
        have h2 := (not_iff_not.mpr (hB.keysEq ⟨cur.col + d.1, cur.row + d.2⟩)).mp this
        push_neg at h2
        exact h2
      have hself := alookup_aset_self st.nodeMap
        (⟨cur.col + d.1, cur.row + d.2⟩ : PathCell)
        (⟨cur.col + d.1, cur.row + d.2, curNode.g + 1,
          curNode.g + 1 + manhattan (cur.col + d.1) (cur.row + d.2) endCol endRow,
          some cur⟩ : Node)
      have hother : ∀ k : PathCell, k ≠ ⟨cur.col + d.1, cur.row + d.2⟩ →
          alookup (aset st.nodeMap ⟨cur.col + d.1, cur.row + d.2⟩
            (⟨cur.col + d.1, cur.row + d.2, curNode.g + 1,
              curNode.g + 1 + manhattan (cur.col + d.1) (cur.row + d.2) endCol endRow,
              some cur⟩ : Node)) k = alookup st.nodeMap k :=
        fun k hk => alookup_aset_ne _ _ _ _ (fun hc => hk hc.symm)
      refine ⟨?_, rfl, ?_, ?_, ?_⟩
      · refine
          { openNodup := ?_
            closedNodup := hB.closedNodup
            disj := ?_
            keysEq := ?_
            coh := ?_
            fEq := ?_
            gReal := ?_
            parentNone := ?_
            parentSome := ?_
            startMem := ?_
            nonStartValid := ?_
            closedOpt := ?_
            endNotClosed := hB.endNotClosed
            startState := Or.inl hstart }
        · rw [List.nodup_append]
          exact ⟨hB.openNodup, List.nodup_singleton _, by
            intro a ha hb
            rcases List.mem_singleton.mp hb with rfl
            exact hnotmem.1 ha⟩
        · intro k hk
          rcases List.mem_append.mp hk with hk1 | hk1
          · exact hB.disj k hk1
          · rcases List.mem_singleton.mp hk1 with rfl
            exact hnotmem.2
        · intro k
          rw [isSome_aset]
          constructor
          · rintro (rfl | hs)
            · exact Or.inl (List.mem_append_right _ (List.mem_singleton.mpr rfl))
            · rcases (hB.keysEq k).mp hs with h | h
              · exact Or.inl (List.mem_append_left _ h)
              · exact Or.inr h
          · rintro (h | h)
            · rcases List.mem_append.mp h with h1 | h1
              · exact Or.inr ((hB.keysEq k).mpr (Or.inl h1))
              · exact Or.inl (List.mem_singleton.mp h1)
            · exact Or.inr ((hB.keysEq k).mpr (Or.inr h))
        · intro k n hkn
          by_cases hk : k = (⟨cur.col + d.1, cur.row + d.2⟩ : PathCell)
          · subst hk
            rw [hself] at hkn
            rcases Option.some_inj.mp hkn with rfl
            exact ⟨rfl, rfl⟩
          · rw [hother k hk] at hkn
            exact hB.coh k n hkn
        · intro k n hkn
          by_cases hk : k = (⟨cur.col + d.1, cur.row + d.2⟩ : PathCell)
          · subst hk
            rw [hself] at hkn
            rcases Option.some_inj.mp hkn with rfl
            rfl
          · rw [hother k hk] at hkn
            exact hB.fEq k n hkn
        · intro k n hkn
          by_cases hk : k = (⟨cur.col + d.1, cur.row + d.2⟩ : PathCell)
          · subst hk
            rw [hself] at hkn
            rcases Option.some_inj.mp hkn with rfl
            exact .tail (hB.gReal cur curNode hlk) hstepOK
          · rw [hother k hk] at hkn
            exact hB.gReal k n hkn
        · intro k n hkn hnone
          by_cases hk : k = (⟨cur.col + d.1, cur.row + d.2⟩ : PathCell)
          · subst hk
            rw [hself] at hkn
            rcases Option.some_inj.mp hkn with rfl
            cases hnone
          · rw [hother k hk] at hkn
            exact hB.parentNone k n hkn hnone
        · intro k n p hkn hp
          by_cases hk : k = (⟨cur.col + d.1, cur.row + d.2⟩ : PathCell)
          · subst hk
            rw [hself] at hkn
            rcases Option.some_inj.mp hkn with rfl
            rcases Option.some_inj.mp hp with rfl
            refine ⟨hcl, curNode, ?_, rfl, hstepOK⟩
            rw [hother cur (Ne.symm hne_cur)]
            exact hlk
          · rw [hother k hk] at hkn
            obtain ⟨hpc, pn, hpn, hg, hs⟩ := hB.parentSome k n p hkn hp
            have hpne : p ≠ (⟨cur.col + d.1, cur.row + d.2⟩ : PathCell) :=
              fun hc => hnotmem.2 (hc ▸ hpc)
            exact ⟨hpc, pn, by rw [hother p hpne]; exact hpn, hg, hs⟩
        · obtain ⟨n0, hn0, hg0⟩ := hB.startMem
          exact ⟨n0, by rw [hother start (Ne.symm hne_start)]; exact hn0, hg0⟩
        · intro k n hkn hkne
          by_cases hk : k = (⟨cur.col + d.1, cur.row + d.2⟩ : PathCell)
          · subst hk
            exact ⟨hstepOK.2.1, hstepOK.2.2⟩
          · rw [hother k hk] at hkn
            exact hB.nonStartValid k n hkn hkne
        · intro k hkc n hkn
          have hkne : k ≠ (⟨cur.col + d.1, cur.row + d.2⟩ : PathCell) :=
            fun hc => hnotmem.2 (hc ▸ hkc)
          rw [hother k hkne] at hkn
          exact hB.closedOpt k hkc n hkn
      · intro z zn hz
        have hk : z ≠ (⟨cur.col + d.1, cur.row + d.2⟩ : PathCell) := by
          intro hc
          rw [hc, hex] at hz
          cases hz
        exact ⟨zn, by rw [hother z hk]; exact hz, le_rfl⟩
      · intro w hw
        have hwne : w ≠ (⟨cur.col + d.1, cur.row + d.2⟩ : PathCell) :=
          fun hc => hnotmem.2 (hc ▸ hw)
        exact hother w hwne
      · intro _
        exact ⟨_, hself, by dsimp only; omega⟩

end RelaxMain

section ExpandAll

variable {gridCols gridRows : Nat} {endCol endRow : Int}
variable {blocked : Int → Int → Bool} {start : PathCell}

theorem expandedAt_of_mono (st st' : AState) (w : PathCell)
    (hw : ExpandedAt gridCols gridRows blocked st w)
    (hstable : alookup st'.nodeMap w = alookup st.nodeMap w)
    (hmono : ∀ z zn, alookup st.nodeMap z = some zn →
      ∃ zn', alookup st'.nodeMap z = some zn' ∧ zn'.g ≤ zn.g) :
    ExpandedAt gridCols gridRows blocked st' w := by
  intro z hs
  obtain ⟨wn, zn, hwn, hzn, hle⟩ := hw z hs
  obtain ⟨zn', hzn', hle'⟩ := hmono z zn hzn
  exact ⟨wn, zn', by rw [hstable]; exact hwn, hzn', by omega⟩

/-- Processing all four directions of a popped node restores the full
invariant, with `closed` unchanged. -/
theorem expandAll (st1 : AState) (cur : PathCell) (curNode : Node)
    (hB : BaseInv gridCols gridRows endCol endRow blocked start st1)
    (hcl : cur ∈ st1.closed)
    (hlk : alookup st1.nodeMap cur = some curNode)
    (hdist : hasDist gridCols gridRows blocked start cur curNode.g)
    (hstart : start ∈ st1.closed)
    (hexpOld : ∀ w ∈ st1.closed, w ≠ cur →
      ExpandedAt gridCols gridRows blocked st1 w) :
    AInv gridCols gridRows endCol endRow blocked start
      (DIRS.foldl (relax gridCols gridRows endCol endRow blocked cur curNode.g) st1) ∧
    (DIRS.foldl (relax gridCols gridRows endCol endRow blocked cur curNode.g)
      st1).closed = st1.closed := by
  have hd1 : ((0 : Int), (-1 : Int)) ∈ DIRS := by simp [DIRS]
  have hd2 : ((1 : Int), (0 : Int)) ∈ DIRS := by simp [DIRS]
  have hd3 : ((0 : Int), (1 : Int)) ∈ DIRS := by simp [DIRS]
  have hd4 : ((-1 : Int), (0 : Int)) ∈ DIRS := by simp [DIRS]
  obtain ⟨B2, C2, M2, S2, T2⟩ := relax_main st1 cur curNode (0, -1) hB hcl hlk hdist hd1 hstart
  set st2 := relax gridCols gridRows endCol endRow blocked cur curNode.g st1 (0, -1)
    with hst2
  have hcl2 : cur ∈ st2.closed := by rw [C2]; exact hcl
  have hstart2 : start ∈ st2.closed := by rw [C2]; exact hstart
  have hlk2 : alookup st2.nodeMap cur = some curNode := by rw [S2 cur hcl]; exact hlk
  obtain ⟨B3, C3, M3, S3, T3⟩ := relax_main st2 cur curNode (1, 0) B2 hcl2 hlk2 hdist hd2 hstart2
  set st3 := relax gridCols gridRows endCol endRow blocked cur curNode.g st2 (1, 0)
    with hst3
  have hcl3 : cur ∈ st3.closed := by rw [C3]; exact hcl2
  have hstart3 : start ∈ st3.closed := by rw [C3]; exact hstart2
  have hlk3 : alookup st3.nodeMap cur = some curNode := by rw [S3 cur hcl2]; exact hlk2
  obtain ⟨B4, C4, M4, S4, T4⟩ := relax_main st3 cur curNode (0, 1) B3 hcl3 hlk3 hdist hd3 hstart3
  set st4 := relax gridCols gridRows endCol endRow blocked cur curNode.g st3 (0, 1)
    with hst4
  have hcl4 : cur ∈ st4.closed := by rw [C4]; exact hcl3
  have hstart4 : start ∈ st4.closed := by rw [C4]; exact hstart3
  have hlk4 : alookup st4.nodeMap cur = some curNode := by rw [S4 cur hcl3]; exact hlk3
  obtain ⟨B5, C5, M5, S5, T5⟩ := relax_main st4 cur curNode (-1, 0) B4 hcl4 hlk4 hdist hd4 hstart4
  set st5 := relax gridCols gridRows endCol endRow blocked cur curNode.g st4 (-1, 0)
    with hst5
  have hfold : DIRS.foldl (relax gridCols gridRows endCol endRow blocked cur
      curNode.g) st1 = st5 := by
    simp only [DIRS, List.foldl_cons, List.foldl_nil]
  have hclosed5 : st5.closed = st1.closed := by rw [C5, C4, C3, C2]
  -- compose monotone lookups
  have M13 : ∀ z zn, alookup st2.nodeMap z = some zn →
      ∃ zn', alookup st5.nodeMap z = some zn' ∧ zn'.g ≤ zn.g := by
    intro z zn h
    obtain ⟨a, ha, hag⟩ := M3 z zn h
    obtain ⟨b, hb, hbg⟩ := M4 z a ha
    obtain ⟨c, hc2, hcg⟩ := M5 z b hb
    exact ⟨c, hc2, by omega⟩
  have M15 : ∀ z zn, alookup st1.nodeMap z = some zn →
      ∃ zn', alookup st5.nodeMap z = some zn' ∧ zn'.g ≤ zn.g := by
    intro z zn h
    obtain ⟨a, ha, hag⟩ := M2 z zn h
    obtain ⟨b, hb, hbg⟩ := M13 z a ha
    exact ⟨b, hb, by omega⟩
  have S15 : ∀ w ∈ st1.closed, alookup st5.nodeMap w = alookup st1.nodeMap w := by
    intro w hw
    rw [S5 w (by rw [C4, C3, C2]; exact hw), S4 w (by rw [C3, C2]; exact hw),
      S3 w (by rw [C2]; exact hw), S2 w hw]
  have hlk5 : alookup st5.nodeMap cur = some curNode := by rw [S5 cur hcl4]; exact hlk4
  rw [hfold]
  refine ⟨⟨B5, ?_⟩, hclosed5⟩
  intro w hw
  by_cases hwc : w = cur
  · subst hwc
    intro z hs
    have hs' := hs
    obtain ⟨⟨d, hd, hzd⟩, -, -⟩ := hs'
    subst hzd
    have hcover : ∃ zn, alookup st5.nodeMap ⟨w.col + d.1, w.row + d.2⟩ = some zn ∧
        zn.g ≤ curNode.g + 1 := by
      simp only [DIRS, List.mem_cons, List.not_mem_nil, or_false] at hd
      rcases hd with rfl | rfl | rfl | rfl
      · obtain ⟨zn, hzn, hg⟩ := T2 hs
        obtain ⟨zn', hzn', hg'⟩ := M13 _ zn hzn
        exact ⟨zn', hzn', by omega⟩
      · obtain ⟨zn, hzn, hg⟩ := T3 hs
        obtain ⟨a, ha, hag⟩ := M4 _ zn hzn
        obtain ⟨b, hb, hbg⟩ := M5 _ a ha
        exact ⟨b, hb, by omega⟩
      · obtain ⟨zn, hzn, hg⟩ := T4 hs
        obtain ⟨a, ha, hag⟩ := M5 _ zn hzn
        exact ⟨a, ha, by omega⟩
      · obtain ⟨zn, hzn, hg⟩ := T5 hs
        exact ⟨zn, hzn, hg⟩
    obtain ⟨zn, hzn, hg⟩ := hcover
    exact ⟨curNode, zn, hlk5, hzn, hg⟩
  · have hw1 : w ∈ st1.closed := by rw [← hclosed5]; exact hw
    exact expandedAt_of_mono st1 st5 w (hexpOld w hw1 hwc) (S15 w hw1) M15

end ExpandAll

section FrontierPop

variable {gridCols gridRows : Nat} {endCol endRow : Int}
variable {blocked : Int → Int → Bool} {start : PathCell}

/-- `fOf` evaluates to the stored node's `f`. -/
theorem fOf_eq (m : List (PathCell × Node)) (k : PathCell) (n : Node)
    (h : alookup m k = some n) : fOf m k = n.f := by
  simp [fOf, h]

/-- The crossing lemma: for any reachable cell `t` not yet closed, some open
node lies on a shortest walk to `t` and carries its own exact distance. -/
theorem astarFrontier (st : AState)
    (hI : AInv gridCols gridRows endCol endRow blocked start st) :
    ∀ dt t, hasDist gridCols gridRows blocked start t dt → t ∉ st.closed →
      ∃ k kn m, k ∈ st.openList ∧ alookup st.nodeMap k = some kn ∧
        hasDist gridCols gridRows blocked start k kn.g ∧
        ReachFrom gridCols gridRows blocked k t m ∧ kn.g + m = dt := by
  intro dt
  induction dt with
  | zero =>
      intro t ht htc
      have hts : t = start := reachFrom_zero gridCols gridRows blocked ht.1
      subst hts
      obtain ⟨n0, hn0, hg0⟩ := hI.1.startMem
      have hopen : t ∈ st.openList := by
        rcases (hI.1.keysEq t).mp (Option.isSome_iff_exists.mpr ⟨n0, hn0⟩) with h | h
        · exact h
        · exact absurd h htc
      refine ⟨t, n0, 0, hopen, hn0, ?_, .refl, by omega⟩
      rw [hg0]
      exact ⟨.refl, fun m _ => Nat.zero_le m⟩
  | succ n ih =>
      intro t ht htc
      obtain ⟨w, hw, hs⟩ := hasDist_pred gridCols gridRows blocked ht
      by_cases hwc : w ∈ st.closed
      · have hwl := (hI.1.keysEq w).mpr (Or.inr hwc)
        obtain ⟨wn, hwn⟩ := Option.isSome_iff_exists.mp hwl
        have hwopt := hI.1.closedOpt w hwc wn hwn
        have hwg : wn.g = n := hasDist_unique gridCols gridRows blocked hwopt hw
        obtain ⟨wn', tn, hwn', htn, hle⟩ := hI.2 w hwc t hs
        rw [hwn] at hwn'
        rcases Option.some_inj.mp hwn' with rfl
        have htreal := hI.1.gReal t tn htn
        have htg_ge : n + 1 ≤ tn.g := ht.2 tn.g htreal
        have htg : tn.g = n + 1 := by omega
        have hopen : t ∈ st.openList := by
          rcases (hI.1.keysEq t).mp (Option.isSome_iff_exists.mpr ⟨tn, htn⟩) with h | h
          · exact h
          · exact absurd h htc
        refine ⟨t, tn, 0, hopen, htn, ?_, .refl, by omega⟩
        rw [htg]
        exact ht
      · obtain ⟨k, kn, m, hko, hkl, hkd, hkr, hke⟩ := ih w hw hwc
        exact ⟨k, kn, m + 1, hko, hkl, hkd, .tail hkr hs, by omega⟩

/-- The popped node's `g` is its exact shortest-path distance. -/
theorem popped_opt (st : AState)
    (hI : AInv gridCols gridRows endCol endRow blocked start st)
    (x : PathCell) (xs : List PathCell) (hopen : st.openList = x :: xs) :
    ∃ curNode, alookup st.nodeMap (popBest st.nodeMap (x :: xs)).1 = some curNode ∧
      hasDist gridCols gridRows blocked start
        (popBest st.nodeMap (x :: xs)).1 curNode.g := by
  have hperm := popBest_perm st.nodeMap (x :: xs) (by simp)
  have hcur_open : (popBest st.nodeMap (x :: xs)).1 ∈ st.openList := by
    rw [hopen]
    exact hperm.mem_iff.mpr (List.mem_cons_self _ _)
  have hcur_some := (hI.1.keysEq _).mpr (Or.inl hcur_open)
  obtain ⟨curNode, hlk⟩ := Option.isSome_iff_exists.mp hcur_some
  have hnc : (popBest st.nodeMap (x :: xs)).1 ∉ st.closed :=
    hI.1.disj _ hcur_open
  have hreal := hI.1.gReal _ curNode hlk
  obtain ⟨dc, hdc⟩ := hasDist_exists gridCols gridRows blocked ⟨curNode.g, hreal⟩
  have hdc_le : dc ≤ curNode.g := hdc.2 curNode.g hreal
  obtain ⟨k, kn, m, hko, hkl, hkd, hkr, hke⟩ := astarFrontier st hI dc _ hdc hnc
  have hmin : fOf st.nodeMap (popBest st.nodeMap (x :: xs)).1 ≤ fOf st.nodeMap k := by
    refine popBest_min st.nodeMap (x :: xs) k ?_
    rw [← hopen]
    exact hko
  rw [fOf_eq _ _ curNode hlk, fOf_eq _ _ kn hkl] at hmin
  have hfc := hI.1.fEq _ curNode hlk
  have hfk := hI.1.fEq _ kn hkl
  have hcons := manhattan_le_reach_add gridCols gridRows blocked endCol endRow hkr
  have hgle : curNode.g ≤ dc := by
    rw [hfc, hfk] at hmin
    simp only [hCost] at hmin
    omega
  have heq : curNode.g = dc := by omega
  exact ⟨curNode, hlk, by rw [heq]; exact hdc⟩

end FrontierPop

section Reconstruct

variable {gridCols gridRows : Nat} {endCol endRow : Int}
variable {blocked : Int → Int → Bool} {start : PathCell}

theorem mem_keys_of_isSome {α β : Type} [DecidableEq α] (l : List (α × β)) (k : α)
    (h : (alookup l k).isSome) : k ∈ l.map Prod.fst := by
  by_contra hc
  rw [(alookup_eq_none_iff l k).mpr hc] at h
  cases h

/-- The parent chain of any stored node visits `g + 1` distinct stored keys,
so `g` is less than the size of the node store. -/
theorem node_g_lt (st : AState)
    (hB : BaseInv gridCols gridRows endCol endRow blocked start st) :
    ∀ gval (k : PathCell) (n : Node), alookup st.nodeMap k = some n → n.g = gval →
      gval < st.nodeMap.length := by
  have key : ∀ gval (k : PathCell) (n : Node),
      alookup st.nodeMap k = some n → n.g = gval →
      ∃ ks : List PathCell, ks.Nodup ∧ ks.length = gval + 1 ∧
        ∀ x ∈ ks, ∃ xn, alookup st.nodeMap x = some xn ∧ xn.g ≤ gval := by
    intro gval
    induction gval with
    | zero =>
        intro k n hk hg
        exact ⟨[k], List.nodup_singleton k, rfl, by
          intro x hx
          rcases List.mem_singleton.mp hx with rfl
          exact ⟨n, hk, le_of_eq hg⟩⟩
    | succ m ih =>
        intro k n hk hg
        cases hpar : n.parentKey with
        | none =>
            have := (hB.parentNone k n hk hpar).2
            omega
        | some p =>
            obtain ⟨-, pn, hpn, hgp, -⟩ := hB.parentSome k n p hk hpar
            have hpg : pn.g = m := by omega
            obtain ⟨ks, hnd, hlen, hbound⟩ := ih p pn hpn hpg
            refine ⟨k :: ks, ?_, by simp [hlen], ?_⟩
            · rw [List.nodup_cons]
              refine ⟨?_, hnd⟩
              intro hkmem
              obtain ⟨kn', hkn', hkg'⟩ := hbound k hkmem
              rw [hk] at hkn'
              rcases Option.some_inj.mp hkn' with rfl
              omega
            · intro x hx
              rcases List.mem_cons.mp hx with rfl | hx'
              · exact ⟨n, hk, by omega⟩
              · obtain ⟨xn, hxn, hxg⟩ := hbound x hx'
                exact ⟨xn, hxn, by omega⟩
  intro gval k n hk hg
  obtain ⟨ks, hnd, hlen, hbound⟩ := key gval k n hk hg
  have hsub : ks ⊆ st.nodeMap.map Prod.fst := by
    intro x hx
    obtain ⟨xn, hxn, -⟩ := hbound x hx
    exact mem_keys_of_isSome _ x (Option.isSome_iff_exists.mpr ⟨xn, hxn⟩)
  have := (List.subperm_of_subset hnd hsub).length_le
  rw [hlen, List.length_map] at this
  omega

/-- `reconstructN` on a stored node yields `start :: rest` prepended to the
accumulator, with `rest` of length `g` consisting of in-bounds unblocked
cells. -/
theorem reconstructN_spec (st : AState)
    (hB : BaseInv gridCols gridRows endCol endRow blocked start st) :
    ∀ gval (k : PathCell) (n : Node) (acc : List PathCell) (fuel : Nat),
      alookup st.nodeMap k = some n → n.g = gval → gval < fuel →
      ∃ rest, reconstructN st.nodeMap fuel (some n) acc = (start :: rest) ++ acc ∧
        rest.length = gval ∧
        ∀ c ∈ rest, inBoundsCell gridCols gridRows c ∧ blocked c.col c.row = false := by
  intro gval
  induction gval with
  | zero =>
      intro k n acc fuel hk hg hfuel
      obtain ⟨fuel', rfl⟩ := Nat.exists_eq_succ_of_ne_zero (Nat.pos_iff_ne_zero.mp hfuel)
      cases hpar : n.parentKey with
      | some p =>
          obtain ⟨-, pn, -, hgp, -⟩ := hB.parentSome k n p hk hpar
          omega
      | none =>
          obtain ⟨hks, -⟩ := hB.parentNone k n hk hpar
          obtain ⟨hcol, hrow⟩ := hB.coh k n hk
          refine ⟨[], ?_, rfl, by intro c hc; cases hc⟩
          simp only [reconstructN, hpar]
          rw [hcol, hrow, hks]
          rfl
  | succ m ih =>
      intro k n acc fuel hk hg hfuel
      obtain ⟨fuel', rfl⟩ := Nat.exists_eq_succ_of_ne_zero
        (Nat.pos_iff_ne_zero.mp (by omega : 0 < fuel))
      cases hpar : n.parentKey with
      | none =>
          have := (hB.parentNone k n hk hpar).2
          omega
      | some p =>
          obtain ⟨-, pn, hpn, hgp, hstep⟩ := hB.parentSome k n p hk hpar
          have hpg : pn.g = m := by omega
          obtain ⟨hcol, hrow⟩ := hB.coh k n hk
          obtain ⟨rest', hres', hlen', hok'⟩ :=
            ih p pn (⟨n.col, n.row⟩ :: acc) fuel' hpn hpg (by omega)
          refine ⟨rest' ++ [k], ?_, by simp [hlen'], ?_⟩
          · simp only [reconstructN, hpar, hpn]
            rw [hres', hcol, hrow]
            simp
          · intro c hc
            rcases List.mem_append.mp hc with hc1 | hc1
            · exact hok' c hc1
            · rcases List.mem_singleton.mp hc1 with rfl
              exact ⟨hstep.2.1, hstep.2.2⟩

end Reconstruct

/-! ### Size of the closed set -/

/-- All in-bounds cells, as a list of length `gridCols * gridRows`. -/
def cellsList (gridCols gridRows : Nat) : List PathCell :=
  (List.range gridCols).flatMap (fun c => (List.range gridRows).map
    (fun r => PathCell.mk (Int.ofNat c) (Int.ofNat r)))

theorem cellsList_length (gridCols gridRows : Nat) :
    (cellsList gridCols gridRows).length = gridCols * gridRows := by
  unfold cellsList
  induction gridCols with
  | zero => simp
  | succ n ih =>
      rw [List.range_succ, List.flatMap_append]
      simp only [List.length_append, ih, List.flatMap_cons, List.flatMap_nil,
        List.append_nil, List.length_map, List.length_range]
      rw [Nat.succ_mul]

theorem mem_cellsList {gridCols gridRows : Nat} (c : PathCell)
    (h : inBoundsCell gridCols gridRows c) : c ∈ cellsList gridCols gridRows := by
  obtain ⟨h1, h2, h3, h4⟩ := h
  unfold cellsList
  rw [List.mem_flatMap]
  refine ⟨c.col.toNat, ?_, ?_⟩
  · rw [List.mem_range]; omega
  · rw [List.mem_map]
    refine ⟨c.row.toNat, by rw [List.mem_range]; omega, ?_⟩
    have : (c.col.toNat : Int) = c.col := Int.toNat_of_nonneg h1
    have : (c.row.toNat : Int) = c.row := Int.toNat_of_nonneg h3
    cases c
    simp_all

section ClosedBound

variable {gridCols gridRows : Nat} {endCol endRow : Int}
variable {blocked : Int → Int → Bool} {start : PathCell}

theorem closed_length_le (st : AState)
    (hB : BaseInv gridCols gridRows endCol endRow blocked start st) :
    st.closed.length ≤ gridCols * gridRows + 1 := by
  have hsub : st.closed ⊆ start :: cellsList gridCols gridRows := by
    intro k hk
    have hsome := (hB.keysEq k).mpr (Or.inr hk)
    obtain ⟨n, hn⟩ := Option.isSome_iff_exists.mp hsome
    by_cases hks : k = start
    · rw [hks]; exact List.mem_cons_self _ _
    · exact List.mem_cons_of_mem _
        (mem_cellsList k (hB.nonStartValid k n hn hks).1)
  have := (List.subperm_of_subset hB.closedNodup hsub).length_le
  simp only [List.length_cons, cellsList_length] at this
  omega

end ClosedBound

section MainLoop

variable {gridCols gridRows : Nat} {endCol endRow : Int}
variable {blocked : Int → Int → Bool} {start : PathCell}

theorem gOf_eq (m : List (PathCell × Node)) (k : PathCell) (n : Node)
    (h : alookup m k = some n) : gOf m k = n.g := by
  simp [gOf, h]

theorem loopA_succ_nil (fuel : Nat) (st : AState) (h : st.openList = []) :
    loopA gridCols gridRows endCol endRow blocked (fuel + 1) st = [] := by
  rw [loopA.eq_def]
  dsimp only
  rw [h]

theorem loopA_succ_cons (fuel : Nat) (st : AState) (x : PathCell)
    (xs : List PathCell) (h : st.openList = x :: xs) :
    loopA gridCols gridRows endCol endRow blocked (fuel + 1) st =
      (if (popBest st.nodeMap (x :: xs)).1 = (⟨endCol, endRow⟩ : PathCell) then
        reconstructN st.nodeMap st.nodeMap.length
          (alookup st.nodeMap (popBest st.nodeMap (x :: xs)).1) []
      else
        loopA gridCols gridRows endCol endRow blocked fuel
          (DIRS.foldl (relax gridCols gridRows endCol endRow blocked
            (popBest st.nodeMap (x :: xs)).1
            (gOf st.nodeMap (popBest st.nodeMap (x :: xs)).1))
            ⟨(popBest st.nodeMap (x :: xs)).2,
              st.closed ++ [(popBest st.nodeMap (x :: xs)).1], st.nodeMap⟩)) := by
  rw [loopA.eq_def]
  dsimp only
  rw [h]

/-- Popping an expanded-optimal node re-establishes the base invariant with
the node moved from open to closed. -/
theorem pop_baseInv (st : AState)
    (hI : AInv gridCols gridRows endCol endRow blocked start st)
    (x : PathCell) (xs : List PathCell) (hopen : st.openList = x :: xs)
    (curNode : Node)
    (hlk : alookup st.nodeMap (popBest st.nodeMap (x :: xs)).1 = some curNode)
    (hdist : hasDist gridCols gridRows blocked start
      (popBest st.nodeMap (x :: xs)).1 curNode.g)
    (hend : (popBest st.nodeMap (x :: xs)).1 ≠ (⟨endCol, endRow⟩ : PathCell)) :
    BaseInv gridCols gridRows endCol endRow blocked start
      ⟨(popBest st.nodeMap (x :: xs)).2,
        st.closed ++ [(popBest st.nodeMap (x :: xs)).1], st.nodeMap⟩ ∧
    (popBest st.nodeMap (x :: xs)).1 ∈
      st.closed ++ [(popBest st.nodeMap (x :: xs)).1] ∧
    start ∈ st.closed ++ [(popBest st.nodeMap (x :: xs)).1] ∧
    (∀ w ∈ st.closed ++ [(popBest st.nodeMap (x :: xs)).1],
      w ≠ (popBest st.nodeMap (x :: xs)).1 →
      ExpandedAt gridCols gridRows blocked
        ⟨(popBest st.nodeMap (x :: xs)).2,
          st.closed ++ [(popBest st.nodeMap (x :: xs)).1], st.nodeMap⟩ w) := by
  have hperm0 := popBest_perm st.nodeMap (x :: xs) (by simp)
  have hperm : st.openList.Perm
      ((popBest st.nodeMap (x :: xs)).1 :: (popBest st.nodeMap (x :: xs)).2) := by
    rw [hopen]; exact hperm0
  have hnodup' := hperm.nodup hI.1.openNodup
  rw [List.nodup_cons] at hnodup'
  have hmem_iff : ∀ k : PathCell, k ∈ st.openList ↔
      (k = (popBest st.nodeMap (x :: xs)).1 ∨ k ∈ (popBest st.nodeMap (x :: xs)).2) := by
    intro k
    rw [hperm.mem_iff, List.mem_cons]
  have hcur_open : (popBest st.nodeMap (x :: xs)).1 ∈ st.openList :=
    (hmem_iff _).mpr (Or.inl rfl)
  have hcur_nc := hI.1.disj _ hcur_open
  have hmemc : ∀ k : PathCell,
      k ∈ st.closed ++ [(popBest st.nodeMap (x :: xs)).1] ↔
      (k ∈ st.closed ∨ k = (popBest st.nodeMap (x :: xs)).1) := by
    intro k
    rw [List.mem_append, List.mem_singleton]
  have hstart_in : start ∈ st.closed ++ [(popBest st.nodeMap (x :: xs)).1] := by
    rcases hI.1.startState with h | h
    · exact List.mem_append_left _ h
    · rw [hopen] at h
      have hx : x = start ∧ xs = [] := by
        rcases List.cons.injEq .. ▸ h with ⟨h1, h2⟩
        exact ⟨h1, h2⟩
      rcases hx with ⟨rfl, rfl⟩
      have : popBest st.nodeMap [x] = (x, []) := by simp [popBest]
      rw [this]
      exact List.mem_append_right _ (List.mem_singleton.mpr rfl)
  refine ⟨?_, List.mem_append_right _ (List.mem_singleton.mpr rfl), hstart_in, ?_⟩
  · refine
      { openNodup := hnodup'.2
        closedNodup := ?_
        disj := ?_
        keysEq := ?_
        coh := hI.1.coh
        fEq := hI.1.fEq
        gReal := hI.1.gReal
        parentNone := hI.1.parentNone
        parentSome := ?_
        startMem := hI.1.startMem
        nonStartValid := hI.1.nonStartValid
        closedOpt := ?_
        endNotClosed := ?_
        startState := Or.inl hstart_in }
    · rw [List.nodup_append]
      exact ⟨hI.1.closedNodup, List.nodup_singleton _, by
        intro a ha hb
        rcases List.mem_singleton.mp hb with rfl
        exact hcur_nc ha⟩
    · intro k hk
      have hk_open : k ∈ st.openList := (hmem_iff k).mpr (Or.inr hk)
      rw [hmemc]
      rintro (hc | hc)
      · exact hI.1.disj k hk_open hc
      · exact hnodup'.1 (hc ▸ hk)
    · intro k
      rw [hI.1.keysEq k, hmem_iff k, hmemc k]
      tauto
    · intro k n p hkn hp
      obtain ⟨hpc, pn, hpn, hg, hs⟩ := hI.1.parentSome k n p hkn hp
      exact ⟨List.mem_append_left _ hpc, pn, hpn, hg, hs⟩
    · intro k hk n hkn
      rcases (hmemc k).mp hk with hk1 | rfl
      · exact hI.1.closedOpt k hk1 n hkn
      · rw [hlk] at hkn
        rcases Option.some_inj.mp hkn with rfl
        exact hdist
    · intro hc
      rcases (hmemc _).mp hc with hc1 | hc1
      · exact hI.1.endNotClosed hc1
      · exact hend hc1.symm
  · intro w hw hwne
    have hw' : w ∈ st.closed := by
      rcases (hmemc w).mp hw with h | h
      · exact h
      · exact absurd h hwne
    exact hI.2 w hw'

/-- The A* main-loop correctness theorem: with sufficient fuel and the loop
invariant, the loop returns a shortest path when the goal is reachable and
the empty list otherwise. -/
theorem loopA_spec :
    ∀ (fuel : Nat) (st : AState),
      AInv gridCols gridRows endCol endRow blocked start st →
      gridCols * gridRows + 2 ≤ fuel + st.closed.length →
      ((∀ dt, hasDist gridCols gridRows blocked start (⟨endCol, endRow⟩ : PathCell) dt →
          ∃ rest, loopA gridCols gridRows endCol endRow blocked fuel st =
            start :: rest ∧ rest.length = dt ∧
            ∀ c ∈ rest, inBoundsCell gridCols gridRows c ∧
              blocked c.col c.row = false) ∧
        ((¬ ∃ m, ReachFrom gridCols gridRows blocked start
            (⟨endCol, endRow⟩ : PathCell) m) →
          loopA gridCols gridRows endCol endRow blocked fuel st = [])) := by
  intro fuel
  induction fuel with
  | zero =>
      intro st hI hfuel
      have := closed_length_le st hI.1
      exact absurd hfuel (by omega)
  | succ fuel ih =>
      intro st hI hfuel
      cases hopen : st.openList with
      | nil =>
          rw [loopA_succ_nil fuel st hopen]
          constructor
          · intro dt hdt
            exfalso
            obtain ⟨k, kn, m, hko, -⟩ :=
              astarFrontier st hI dt _ hdt hI.1.endNotClosed
            rw [hopen] at hko
            cases hko
          · intro _
            rfl
      | cons x xs =>
          obtain ⟨curNode, hlk, hdist⟩ := popped_opt st hI x xs hopen
          rw [loopA_succ_cons fuel st x xs hopen]
          by_cases hend : (popBest st.nodeMap (x :: xs)).1 =
              (⟨endCol, endRow⟩ : PathCell)
          · rw [if_pos hend, hlk]
            have hglt := node_g_lt st hI.1 curNode.g _ curNode hlk rfl
            obtain ⟨rest, hres, hlen, hok⟩ := reconstructN_spec st hI.1 curNode.g _
              curNode [] st.nodeMap.length hlk rfl hglt
            constructor
            · intro dt hdt
              have hdt' : dt = curNode.g :=
                hasDist_unique gridCols gridRows blocked hdt (hend ▸ hdist)
              exact ⟨rest, by simpa using hres, by omega, hok⟩
            · intro hnone
              exact absurd ⟨curNode.g, hend ▸ hI.1.gReal _ curNode hlk⟩ hnone
          · rw [if_neg hend]
            obtain ⟨hB1, hcur1, hstart1, hexp1⟩ :=
              pop_baseInv st hI x xs hopen curNode hlk hdist hend
            rw [gOf_eq st.nodeMap _ curNode hlk]
            obtain ⟨hAI5, hcl5⟩ := expandAll
              ⟨(popBest st.nodeMap (x :: xs)).2,
                st.closed ++ [(popBest st.nodeMap (x :: xs)).1], st.nodeMap⟩
              (popBest st.nodeMap (x :: xs)).1 curNode hB1 hcur1 hlk hdist hstart1 hexp1
            refine ih _ hAI5 ?_
            rw [hcl5]
            simp only [List.length_append, List.length_cons, List.length_nil]
            omega

end MainLoop

section FindPathSpec

variable {gridCols gridRows : Nat} {endCol endRow : Int}
variable {blocked : Int → Int → Bool}

/-- The initial search state satisfies the loop invariant. -/
theorem init_AInv (sc sr : Int) :
    AInv gridCols gridRows endCol endRow blocked (⟨sc, sr⟩ : PathCell)
      ⟨[⟨sc, sr⟩], [],
        [(⟨sc, sr⟩, ⟨sc, sr, 0, manhattan sc sr endCol endRow, none⟩)]⟩ := by
  constructor
  · refine
      { openNodup := List.nodup_singleton _
        closedNodup := List.nodup_nil
        disj := by intro k _ hc; cases hc
        keysEq := ?_
        coh := ?_
        fEq := ?_
        gReal := ?_
        parentNone := ?_
        parentSome := ?_
        startMem := ?_
        nonStartValid := ?_
        closedOpt := by intro k hk; cases hk
        endNotClosed := by intro hc; cases hc
        startState := Or.inr rfl }
    · intro k
      by_cases hk : (⟨sc, sr⟩ : PathCell) = k
      · subst hk
        simp [alookup]
      · have hk' : ¬ k = (⟨sc, sr⟩ : PathCell) := fun hc => hk hc.symm
        simp [alookup, hk, hk']
    · intro k n hkn
      by_cases hk : (⟨sc, sr⟩ : PathCell) = k
      · subst hk
        simp only [alookup, if_pos rfl] at hkn
        rcases Option.some_inj.mp hkn with rfl
        exact ⟨rfl, rfl⟩
      · simp only [alookup, if_neg hk] at hkn
        cases hkn
    · intro k n hkn
      by_cases hk : (⟨sc, sr⟩ : PathCell) = k
      · subst hk
        simp only [alookup, if_pos rfl] at hkn
        rcases Option.some_inj.mp hkn with rfl
        simp [hCost]
      · simp only [alookup, if_neg hk] at hkn
        cases hkn
    · intro k n hkn
      by_cases hk : (⟨sc, sr⟩ : PathCell) = k
      · subst hk
        simp only [alookup, if_pos rfl] at hkn
        rcases Option.some_inj.mp hkn with rfl
        exact .refl
      · simp only [alookup, if_neg hk] at hkn
        cases hkn
    · intro k n hkn _
      by_cases hk : (⟨sc, sr⟩ : PathCell) = k
      · subst hk
        simp only [alookup, if_pos rfl] at hkn
        rcases Option.some_inj.mp hkn with rfl
        exact ⟨rfl, rfl⟩
      · simp only [alookup, if_neg hk] at hkn
        cases hkn
    · intro k n p hkn hp
      by_cases hk : (⟨sc, sr⟩ : PathCell) = k
      · subst hk
        simp only [alookup, if_pos rfl] at hkn
        rcases Option.some_inj.mp hkn with rfl
        cases hp
      · simp only [alookup, if_neg hk] at hkn
        cases hkn
    · exact ⟨⟨sc, sr, 0, manhattan sc sr endCol endRow, none⟩, by simp [alookup], rfl⟩
    · intro k n hkn hkne
      by_cases hk : (⟨sc, sr⟩ : PathCell) = k
      · exact absurd hk.symm hkne
      · simp only [alookup, if_neg hk] at hkn
        cases hkn
  · intro w hw
    cases hw

/-- **C1.**  For in-bounds, unblocked start and end cells, `findPath` returns
a non-empty sequence iff the end is reachable from the start by 4-directional
moves through in-bounds unblocked cells, and the returned cell count is one
plus the minimum number of such moves. -/
theorem c1_findPath_optimal (sc sr ec er : Int) (gridCols gridRows : Nat)
    (isBlocked : Int → Int → Bool)
    (hs : inBoundsCell gridCols gridRows ⟨sc, sr⟩)
    (he : inBoundsCell gridCols gridRows ⟨ec, er⟩)
    (hbs : isBlocked sc sr = false) (hbe : isBlocked ec er = false) :
    ((findPath sc sr ec er gridCols gridRows isBlocked ≠ []) ↔
      ∃ n, ReachFrom gridCols gridRows isBlocked ⟨sc, sr⟩ ⟨ec, er⟩ n) ∧
    (∀ d, hasDist gridCols gridRows isBlocked ⟨sc, sr⟩ ⟨ec, er⟩ d →
      (findPath sc sr ec er gridCols gridRows isBlocked).length = d + 1) := by
  by_cases hse : sc = ec ∧ sr = er
  · obtain ⟨rfl, rfl⟩ := hse
    unfold findPath
    rw [if_pos ⟨rfl, rfl⟩]
    constructor
    · constructor
      · intro _
        exact ⟨0, .refl⟩
      · intro _
        simp
    · intro d hd
      have h0 : hasDist gridCols gridRows isBlocked ⟨sc, sr⟩ ⟨sc, sr⟩ 0 :=
        ⟨.refl, fun m _ => Nat.zero_le m⟩
      rw [hasDist_unique gridCols gridRows isBlocked hd h0]
      rfl
  · unfold findPath
    rw [if_neg hse]
    have hspec := @loopA_spec gridCols gridRows ec er isBlocked ⟨sc, sr⟩
      (gridCols * gridRows + 2)
      ⟨[⟨sc, sr⟩], [],
        [(⟨sc, sr⟩, ⟨sc, sr, 0, manhattan sc sr ec er, none⟩)]⟩
      (init_AInv sc sr) (by simp)
    constructor
    · constructor
      · intro hne
        by_contra hnr
        exact hne (hspec.2 hnr)
      · rintro ⟨n, hn⟩
        obtain ⟨d, hd⟩ := hasDist_exists gridCols gridRows isBlocked ⟨n, hn⟩
        obtain ⟨rest, hres, -, -⟩ := hspec.1 d hd
        rw [hres]
        simp
    · intro d hd
      obtain ⟨rest, hres, hlen, -⟩ := hspec.1 d hd
      rw [hres]
      simp [hlen]

end FindPathSpec

/-- Witness for C1: on an empty 10×10 grid, the path from (0,0) to (3,4) has
Manhattan distance 7, and `findPath` returns exactly 8 cells. -/
theorem c1_witness :
    (findPath 0 0 3 4 10 10 (fun _ _ => false)).length = 8 := by
  have s1 : stepOK 10 10 (fun _ _ => false) ⟨0, 0⟩ ⟨1, 0⟩ :=
    ⟨⟨(1, 0), by decide, by decide⟩, by norm_num [inBoundsCell], rfl⟩
  have s2 : stepOK 10 10 (fun _ _ => false) ⟨1, 0⟩ ⟨2, 0⟩ :=
    ⟨⟨(1, 0), by decide, by decide⟩, by norm_num [inBoundsCell], rfl⟩
  have s3 : stepOK 10 10 (fun _ _ => false) ⟨2, 0⟩ ⟨3, 0⟩ :=
    ⟨⟨(1, 0), by decide, by decide⟩, by norm_num [inBoundsCell], rfl⟩
  have s4 : stepOK 10 10 (fun _ _ => false) ⟨3, 0⟩ ⟨3, 1⟩ :=
    ⟨⟨(0, 1), by decide, by decide⟩, by norm_num [inBoundsCell], rfl⟩
  have s5 : stepOK 10 10 (fun _ _ => false) ⟨3, 1⟩ ⟨3, 2⟩ :=
    ⟨⟨(0, 1), by decide, by decide⟩, by norm_num [inBoundsCell], rfl⟩
  have s6 : stepOK 10 10 (fun _ _ => false) ⟨3, 2⟩ ⟨3, 3⟩ :=
    ⟨⟨(0, 1), by decide, by decide⟩, by norm_num [inBoundsCell], rfl⟩
  have s7 : stepOK 10 10 (fun _ _ => false) ⟨3, 3⟩ ⟨3, 4⟩ :=
    ⟨⟨(0, 1), by decide, by decide⟩, by norm_num [inBoundsCell], rfl⟩
  have r7 : ReachFrom 10 10 (fun _ _ => false) ⟨0, 0⟩ ⟨3, 4⟩ 7 :=
    ((((((ReachFrom.refl.tail s1).tail s2).tail s3).tail s4).tail s5).tail
      s6).tail s7
  have hd : hasDist 10 10 (fun _ _ => false) ⟨0, 0⟩ ⟨3, 4⟩ 7 := by
    refine ⟨r7, fun m hm => ?_⟩
    have h := manhattan_le_reach 10 10 (fun _ _ => false) hm
    simp only [manhattan] at h
    omega
  have h := (c1_findPath_optimal 0 0 3 4 10 10 (fun _ _ => false)
    (by norm_num [inBoundsCell]) (by norm_num [inBoundsCell]) rfl rfl).2 7 hd
  omega

/-! ## C9: the start cell is exempt from the blocked predicate -/

/-- `relax` never changes the closed list. -/
theorem relax_closed (gridCols gridRows : Nat) (endCol endRow : Int)
    (b : Int → Int → Bool) (curKey : PathCell) (curG : Nat)
    (st : AState) (d : Int × Int) :
    (relax gridCols gridRows endCol endRow b curKey curG st d).closed =
      st.closed := by
  unfold relax
  dsimp only
  repeat' split
  all_goals rfl

/-- `relax` only consults the blocked predicate on cells outside the closed
list; two predicates agreeing away from a closed cell give the same result. -/
theorem relax_congr (gridCols gridRows : Nat) (endCol endRow : Int)
    (b b' : Int → Int → Bool) (start : PathCell)
    (hagree : ∀ c r, ¬ (c = start.col ∧ r = start.row) → b c r = b' c r)
    (curKey : PathCell) (curG : Nat) (st : AState)
    (hstart : start ∈ st.closed) (d : Int × Int) :
    relax gridCols gridRows endCol endRow b curKey curG st d =
      relax gridCols gridRows endCol endRow b' curKey curG st d := by
  unfold relax
  dsimp only
  by_cases hoob : curKey.col + d.1 < 0 ∨ (gridCols : Int) ≤ curKey.col + d.1 ∨
      curKey.row + d.2 < 0 ∨ (gridRows : Int) ≤ curKey.row + d.2
  · rw [if_pos hoob, if_pos hoob]
  · rw [if_neg hoob, if_neg hoob]
    by_cases hcl : (⟨curKey.col + d.1, curKey.row + d.2⟩ : PathCell) ∈ st.closed
    · rw [if_pos hcl, if_pos hcl]
    · rw [if_neg hcl, if_neg hcl]
      have hne : ¬ (curKey.col + d.1 = start.col ∧
          curKey.row + d.2 = start.row) := by
        rintro ⟨h1, h2⟩
        apply hcl
        have hcell : (⟨curKey.col + d.1, curKey.row + d.2⟩ : PathCell) = start := by
          cases start
          simp_all
        rw [hcell]
        exact hstart
      rw [hagree _ _ hne]

/-- Expanding the four directions never changes the closed list. -/
theorem foldRelax_closed (gridCols gridRows : Nat) (endCol endRow : Int)
    (b : Int → Int → Bool) (curKey : PathCell) (curG : Nat) (st : AState) :
    (DIRS.foldl (relax gridCols gridRows endCol endRow b curKey curG)
      st).closed = st.closed := by
  simp only [DIRS, List.foldl_cons, List.foldl_nil, relax_closed]

/-- Congruence of the four-direction expansion under predicates agreeing away
from a closed cell. -/
theorem foldRelax_congr (gridCols gridRows : Nat) (endCol endRow : Int)
    (b b' : Int → Int → Bool) (start : PathCell)
    (hagree : ∀ c r, ¬ (c = start.col ∧ r = start.row) → b c r = b' c r)
    (curKey : PathCell) (curG : Nat) (st : AState)
    (hstart : start ∈ st.closed) :
    DIRS.foldl (relax gridCols gridRows endCol endRow b curKey curG) st =
      DIRS.foldl (relax gridCols gridRows endCol endRow b' curKey curG) st := by
  simp only [DIRS, List.foldl_cons, List.foldl_nil]
  rw [relax_congr gridCols gridRows endCol endRow b b' start hagree curKey curG
    st hstart (0, -1)]
  rw [relax_congr gridCols gridRows endCol endRow b b' start hagree curKey curG
    _ (by simp only [relax_closed]; exact hstart) (1, 0)]
  rw [relax_congr gridCols gridRows endCol endRow b b' start hagree curKey curG
    _ (by simp only [relax_closed]; exact hstart) (0, 1)]
  rw [relax_congr gridCols gridRows endCol endRow b b' start hagree curKey curG
    _ (by simp only [relax_closed]; exact hstart) (-1, 0)]

/-- The main loop computes the same result under two blocked predicates that
agree away from the start cell: the start is either already closed or the
sole open cell, and it enters the closed list before any neighbour lookup. -/
theorem loopA_congr (gridCols gridRows : Nat) (endCol endRow : Int)
    (b b' : Int → Int → Bool) (start : PathCell)
    (hagree : ∀ c r, ¬ (c = start.col ∧ r = start.row) → b c r = b' c r) :
    ∀ (fuel : Nat) (st : AState),
      (start ∈ st.closed ∨ (st.openList = [start] ∧ st.closed = [])) →
      loopA gridCols gridRows endCol endRow b fuel st =
        loopA gridCols gridRows endCol endRow b' fuel st := by
  intro fuel
  induction fuel with
  | zero =>
      intro st _
      rfl
  | succ n ih =>
      intro st hstart
      cases hopen : st.openList with
      | nil =>
          rw [loopA_succ_nil n st hopen, loopA_succ_nil n st hopen]
      | cons x xs =>
          rw [loopA_succ_cons n st x xs hopen, loopA_succ_cons n st x xs hopen]
          have hstcl : start ∈ st.closed ++ [(popBest st.nodeMap (x :: xs)).1] := by
            rcases hstart with h | ⟨hop, hcl⟩
            · exact List.mem_append_left _ h
            · rw [hop] at hopen
              injection hopen with h1 h2
              subst h1
              subst h2
              simp [popBest, hcl]
          by_cases hend :
              (popBest st.nodeMap (x :: xs)).1 = (⟨endCol, endRow⟩ : PathCell)
          · rw [if_pos hend, if_pos hend]
          · rw [if_neg hend, if_neg hend]
            have hm : start ∈ (AState.mk (popBest st.nodeMap (x :: xs)).2
                (st.closed ++ [(popBest st.nodeMap (x :: xs)).1])
                st.nodeMap).closed := hstcl
            rw [foldRelax_congr gridCols gridRows endCol endRow b b' start hagree
              (popBest st.nodeMap (x :: xs)).1
              (gOf st.nodeMap (popBest st.nodeMap (x :: xs)).1) _ hm]
            refine ih _ (Or.inl ?_)
            rw [foldRelax_closed]
            exact hstcl

/-- **C9.**  `findPath` never consults the blocked predicate on the start
cell: (i) two blocked predicates agreeing everywhere except possibly at the
start cell produce identical results; (ii) every cell of a returned path
except the first (the start cell) satisfies `isBlocked = false`; (iii) a
non-empty path is returned on a 2×1 grid whose start cell is blocked. -/
theorem c9_start_cell_exempt :
    (∀ (sc sr ec er : Int) (gridCols gridRows : Nat) (b b' : Int → Int → Bool),
      (∀ c r, ¬ (c = sc ∧ r = sr) → b c r = b' c r) →
      findPath sc sr ec er gridCols gridRows b =
        findPath sc sr ec er gridCols gridRows b') ∧
    (∀ (sc sr ec er : Int) (gridCols gridRows : Nat) (b : Int → Int → Bool),
      findPath sc sr ec er gridCols gridRows b = [] ∨
      ∃ rest, findPath sc sr ec er gridCols gridRows b = ⟨sc, sr⟩ :: rest ∧
        ∀ c ∈ rest, b c.col c.row = false) ∧
    findPath 0 0 1 0 2 1 (fun c r => decide (c = 0 ∧ r = 0)) ≠ [] := by
  refine ⟨?_, ?_, by decide⟩
  · intro sc sr ec er gridCols gridRows b b' hagree
    unfold findPath
    by_cases hse : sc = ec ∧ sr = er
    · rw [if_pos hse, if_pos hse]
    · rw [if_neg hse, if_neg hse]
      exact loopA_congr gridCols gridRows ec er b b' ⟨sc, sr⟩
        (fun c r h => hagree c r h) _ _ (Or.inr ⟨rfl, rfl⟩)
  · intro sc sr ec er gridCols gridRows b
    by_cases hse : sc = ec ∧ sr = er
    · refine Or.inr ⟨[], ?_, by intro c hc; cases hc⟩
      unfold findPath
      rw [if_pos hse]
    · have hspec := @loopA_spec gridCols gridRows ec er b ⟨sc, sr⟩
        (gridCols * gridRows + 2)
        ⟨[⟨sc, sr⟩], [],
          [(⟨sc, sr⟩, ⟨sc, sr, 0, manhattan sc sr ec er, none⟩)]⟩
        (init_AInv sc sr) (by simp)
      unfold findPath
      rw [if_neg hse]
      by_cases hreach : ∃ m, ReachFrom gridCols gridRows b ⟨sc, sr⟩ ⟨ec, er⟩ m
      · obtain ⟨d, hd⟩ := hasDist_exists gridCols gridRows b hreach
        obtain ⟨rest, hres, -, hcells⟩ := hspec.1 d hd
        exact Or.inr ⟨rest, hres, fun c hc => (hcells c hc).2⟩
      · exact Or.inl (hspec.2 hreach)

/-- Witness for C9: on the 2×1 grid, blocking exactly the start cell changes
nothing, and the (blocked-start) path is non-empty. -/
theorem c9_witness :
    findPath 0 0 1 0 2 1 (fun c r => decide (c = 0 ∧ r = 0)) =
      findPath 0 0 1 0 2 1 (fun _ _ => false) ∧
    findPath 0 0 1 0 2 1 (fun _ _ => false) ≠ [] := by
  constructor
  · exact c9_start_cell_exempt.1 0 0 1 0 2 1 _ _
      (fun c r h => decide_eq_false h)
  · decide
